import Mathlib

/-!
Verification development for the SubstackFront browser extension.

The development shallowly embeds the extension's JavaScript core:
* the background service worker (src/unnamed/part_001): URL validity,
  the merge/dedup/trim engine `savePosts`, `markPostAsRead`, the age-based
  eviction pass `cleanupOldPosts`, and the refresh orchestrator;
* the content script (src/content/content.js): `parseRelativeDate`,
  `isValidArticleUrl`, and `extractPostFromElement`.

Modelling conventions:
* JavaScript strings are Lean `String`; string scans are written as
  structural functions on `List Char` so that they evaluate inside the
  kernel.
* Instants are milliseconds since the Unix epoch as `Int`, and the host's
  `new Date(string).getTime()` parser is an explicit environment parameter
  `DateEnv` (`none` models an invalid date, i.e. `NaN`).  The runtime's
  local time zone is modelled as UTC (fixed offset, no DST), so calendar
  field arithmetic such as `setHours`/`setDate` is exact millisecond
  arithmetic.
* A JavaScript `Map` keyed by `post.url` whose values always carry their
  own key is modelled as a `List Post` with pairwise-distinct `url`s,
  insertion order preserved, `set` on an existing key replacing in place.
* `Array.prototype.sort` is a stable sort by the comparator; the stable
  sorted permutation is unique, so it is modelled by `List.insertionSort`.
* Asynchronous storage is modelled by explicit state passing: each
  operation maps the stored post array to the new stored post array.
-/

/-- Post record as produced by the content script and persisted by the
background worker (src/content/content.js lines 189-201). -/
structure Post where
  id : String
  title : String
  subtitle : String
  publication : String
  publicationLogo : Option String
  author : String
  coverImage : Option String
  url : String
  publishedAt : Option String
  isRead : Bool
  extractedAt : String
deriving DecidableEq

/-- Check whether the pattern list is a prefix of the text list. -/
def listHasPre : List Char → List Char → Bool
  | [], _ => true
  | _ :: _, [] => false
  | c :: cs, d :: ds => c = d && listHasPre cs ds

/-- Check whether the pattern list occurs contiguously inside the text list. -/
def listHasSub (pat : List Char) : List Char → Bool
  | [] => listHasPre pat []
  | d :: ds => listHasPre pat (d :: ds) || listHasSub pat ds

/-- JavaScript `s.includes(pat)`. -/
def jsIncludes (s pat : String) : Bool := listHasSub pat.data s.data

/-- JavaScript `s.endsWith(pat)`. -/
def jsEndsWith (s pat : String) : Bool := listHasPre pat.data.reverse s.data.reverse

/-- JavaScript `s.startsWith(pat)`. -/
def jsStartsWith (s pat : String) : Bool := listHasPre pat.data s.data

/-- URL validity check of the background worker (src/unnamed/part_001
lines 14-28, `isValidPostUrl`).  The leading `url = ""` test models the
JavaScript falsiness guard `if (!url) return false` for string inputs. -/
def isValidPostUrl (url : String) : Bool :=
  if url = "" then false
  else if !(jsIncludes url "/p/") then false
  else if jsIncludes url "/comments" then false
  else if jsIncludes url "/comment/" then false
  else if jsIncludes url "/comment?" then false
  else if jsEndsWith url "/comment" then false
  else if jsIncludes url "/subscribe" || jsIncludes url "/about" || jsIncludes url "/archive" then false
  else if jsIncludes url "?action=" || jsIncludes url "&action=" then false
  else if jsIncludes url "/discussion" then false
  else true

/-- Host date parser: `new Date(s).getTime()` in milliseconds, `none` for
an invalid date (`NaN`).  Kept abstract because the merge engine only
consumes its output. -/
def DateEnv := String → Option Int

/-- JavaScript `post.publishedAt || post.extractedAt`: first truthy
(non-null, non-empty) of the two date strings. -/
def effDateStr (post : Post) : String :=
  match post.publishedAt with
  | some s => if s = "" then post.extractedAt else s
  | none => post.extractedAt

/-- Effective sort key of a post (src/unnamed/part_001 lines 75-80,
`getPostDate`): parsed effective date, or 0 when the string is empty or
unparseable. -/
def getPostDate (env : DateEnv) (post : Post) : Int :=
  let dateStr := effDateStr post
  if dateStr = "" then 0
  else match env dateStr with
    | some t => t
    | none => 0

/-- JavaScript `Map.set(v.url, v)` on a url-keyed map in insertion order:
replace in place when the key is present, append otherwise. -/
def mapSet (m : List Post) (v : Post) : List Post :=
  if m.any (fun q => q.url = v.url) then
    m.map (fun q => if q.url = v.url then v else q)
  else m ++ [v]

/-- JavaScript `Map.get(u)` on a url-keyed map. -/
def mapGet (m : List Post) (u : String) : Option Post := m.find? (fun q => q.url = u)

/-- Record update used by the merge: keep the incoming post but force
`isRead` (src/unnamed/part_001 lines 63-66). -/
def setRead (p : Post) (b : Bool) : Post := { p with isRead := b }

/-- One merge step of `savePosts` (src/unnamed/part_001 lines 59-72),
map component only: update preserving `isRead`, or insert fresh. -/
def mergePostStep (m : List Post) (post : Post) : List Post :=
  match mapGet m post.url with
  | some existing => mapSet m (setRead post existing.isRead)
  | none => mapSet m post

/-- The same step threading the added/updated counters. -/
def mergeStepFold (acc : List Post × Nat × Nat) (post : Post) : List Post × Nat × Nat :=
  match mapGet acc.1 post.url with
  | some existing => (mapSet acc.1 (setRead post existing.isRead), acc.2.1, acc.2.2 + 1)
  | none => (mapSet acc.1 post, acc.2.1 + 1, acc.2.2)

/-- Map component of folding the whole incoming batch. -/
def mapOnlyFold (m : List Post) (batch : List Post) : List Post :=
  batch.foldl mergePostStep m

/-- Building the url-keyed map from the existing posts
(src/unnamed/part_001 lines 47-50). -/
def buildMap (existing : List Post) : List Post := existing.foldl mapSet []

/-- Storage limit `MAX_POSTS` (src/unnamed/part_001 line 7). -/
def MAX_POSTS : Nat := 300

/-- Retention window `MAX_POST_AGE_DAYS` (src/unnamed/part_001 line 9). -/
def MAX_POST_AGE_DAYS : Int := 30

/-- Descending-by-effective-date comparator ordering used by the merge
(src/unnamed/part_001 lines 82-83): `a` may precede `b` iff
`getPostDate b ≤ getPostDate a`.  Ties are kept in original order by the
stable sort, exactly as JavaScript's stable `Array.sort`. -/
def postOrder (env : DateEnv) (a b : Post) : Prop := getPostDate env b ≤ getPostDate env a

instance (env : DateEnv) : DecidableRel (postOrder env) := fun a b => by
  unfold postOrder
  infer_instance

instance (env : DateEnv) : IsTotal Post (postOrder env) :=
  ⟨fun a b => le_total (getPostDate env b) (getPostDate env a)⟩

instance (env : DateEnv) : IsTrans Post (postOrder env) :=
  ⟨fun _ _ _ h1 h2 => le_trans h2 h1⟩

/-- Stable descending sort of the merged map values. -/
def sortPosts (env : DateEnv) (m : List Post) : List Post :=
  List.insertionSort (postOrder env) m

/-- Size-cap trim (src/unnamed/part_001 lines 86-89). -/
def trimPosts (l : List Post) : List Post :=
  if l.length > MAX_POSTS then l.take MAX_POSTS else l

/-- `getStoredPosts` (src/unnamed/part_001 lines 33-38): read storage and
filter out posts with invalid URLs. -/
def getStoredPosts (stored : List Post) : List Post :=
  stored.filter (fun post => isValidPostUrl post.url)

/-- The merged map of a `savePosts` call before sorting and trimming. -/
def mergedMap (stored newPosts : List Post) : List Post :=
  mapOnlyFold (buildMap (getStoredPosts stored))
    (newPosts.filter (fun post => isValidPostUrl post.url))

/-- Return value of `savePosts`; `posts` is also the array written back to
storage. -/
structure SaveResult where
  posts : List Post
  added : Nat
  updated : Nat
deriving DecidableEq

/-- `savePosts` (src/unnamed/part_001 lines 43-103): read-and-filter the
stored posts, build the url-keyed map, filter the incoming batch to valid
URLs, add-or-update each incoming post preserving `isRead`, sort the map
values by effective date descending (stable), trim to `MAX_POSTS`, and
report added/updated counts.  The byte-quota cleanup hook
(`checkAndCleanupStorage`) is modelled separately by `cleanupOldPosts`. -/
def savePosts (env : DateEnv) (stored : List Post) (newPosts : List Post) : SaveResult :=
  let existingPosts := getStoredPosts stored
  let postMap := buildMap existingPosts
  let validNewPosts := newPosts.filter (fun post => isValidPostUrl post.url)
  let folded := validNewPosts.foldl mergeStepFold (postMap, 0, 0)
  let allPosts := sortPosts env folded.1
  { posts := trimPosts allPosts, added := folded.2.1, updated := folded.2.2 }

/-- `markPostAsRead` (src/unnamed/part_001 lines 108-114): read-and-filter
stored posts, set `isRead` on the matching URL, write back. -/
def markPostAsRead (stored : List Post) (url : String) : List Post :=
  (getStoredPosts stored).map (fun post =>
    if post.url = url then { post with isRead := true } else post)

/-- Freshness test of `cleanupOldPosts` (src/unnamed/part_001 lines
174-177): the effective date string must parse to a valid instant at or
after the cutoff.  An empty effective date string is `new Date("")`,
which is invalid (`NaN`). -/
def postDateOk (env : DateEnv) (cutoff : Int) (post : Post) : Bool :=
  if effDateStr post = "" then false
  else match env (effDateStr post) with
    | some t => decide (cutoff ≤ t)
    | none => false

/-- `cleanupOldPosts` (src/unnamed/part_001 lines 169-187): drop every
valid-URL post older than the cutoff `now - maxAgeDays` days; the write
(first component is the resulting storage) is skipped when nothing was
removed.  Second component is `removedCount`. -/
def cleanupOldPosts (env : DateEnv) (now : Int) (maxAgeDays : Int)
    (stored : List Post) : List Post × Nat :=
  let posts := getStoredPosts stored
  let cutoffDate := now - maxAgeDays * 86400000
  let filteredPosts := posts.filter (fun post => postDateOk env cutoffDate post)
  let removedCount := posts.length - filteredPosts.length
  if removedCount > 0 then (filteredPosts, removedCount) else (stored, removedCount)

/-- ASCII lower-casing of one character, modelling `toLowerCase` on the
ASCII labels the content script handles. -/
def charLower (c : Char) : Char :=
  if 'A' ≤ c ∧ c ≤ 'Z' then Char.ofNat (c.toNat + 32) else c

/-- Lower-case a character list. -/
def lowerChars (cs : List Char) : List Char := cs.map charLower

/-- JavaScript `String.prototype.trim`: strip leading and trailing
whitespace. -/
def trimChars (cs : List Char) : List Char :=
  ((cs.dropWhile Char.isWhitespace).reverse.dropWhile Char.isWhitespace).reverse

/-- String form of `trim`. -/
def jsTrim (s : String) : String := String.mk (trimChars s.data)

/-- Decimal digit run to a number: `parseInt` on a matched `\d+` group. -/
def digitsToNat : List Char → Nat → Nat
  | [], acc => acc
  | c :: cs, acc => digitsToNat cs (acc * 10 + (c.toNat - 48))

/-- Split a character list into a leading digit run and the rest. -/
def spanDigits (cs : List Char) : List Char × List Char :=
  (cs.takeWhile Char.isDigit, cs.dropWhile Char.isDigit)

/-- Drop a leading whitespace run (`\s*`). -/
def dropWs (cs : List Char) : List Char := cs.dropWhile Char.isWhitespace

/-- Match `^(\d+)\s*(s|m|h|d)\s*ago$` against an already lower-cased,
trimmed character list (src/content/content.js line 24). -/
def matchShortRel (cs : List Char) : Option (Nat × Char) :=
  let (ds, rest) := spanDigits cs
  if ds = [] then none
  else match dropWs rest with
    | u :: rest2 =>
        if u = 's' ∨ u = 'm' ∨ u = 'h' ∨ u = 'd' then
          if dropWs rest2 = ['a', 'g', 'o'] then some (digitsToNat ds 0, u) else none
        else none
    | [] => none

/-- Milliseconds per short unit letter. -/
def shortUnitMs (u : Char) : Int :=
  if u = 's' then 1000
  else if u = 'm' then 60000
  else if u = 'h' then 3600000
  else 86400000

/-- Match `^(\d+)\s*(second|minute|hour|day)s?\s*ago$` against a
lower-cased trimmed character list (src/content/content.js line 65). -/
def matchLongRel (cs : List Char) : Option (Nat × Int) :=
  let (ds, rest) := spanDigits cs
  if ds = [] then none
  else
    let rest1 := dropWs rest
    let tryUnit : List Char → Int → Option (Nat × Int) := fun unit ms =>
      if listHasPre unit rest1 then
        let rest2 := rest1.drop unit.length
        let rest3 := if rest2.head? = some 's' then rest2.tail else rest2
        if dropWs rest3 = ['a', 'g', 'o'] then some (digitsToNat ds 0, ms) else none
      else none
    match tryUnit ['s', 'e', 'c', 'o', 'n', 'd'] 1000 with
    | some r => some r
    | none => match tryUnit ['m', 'i', 'n', 'u', 't', 'e'] 60000 with
      | some r => some r
      | none => match tryUnit ['h', 'o', 'u', 'r'] 3600000 with
        | some r => some r
        | none => tryUnit ['d', 'a', 'y'] 86400000

/-- Match `^(\d{1,2}):(\d{2})\s*(AM|PM)$` case-insensitively against a
trimmed character list (src/content/content.js line 49).  Returns
(hours, minutes, isPM). -/
def matchTimeOnly (cs : List Char) : Option (Nat × Nat × Bool) :=
  let (hs, rest) := spanDigits cs
  if hs = [] ∨ hs.length > 2 then none
  else match rest with
    | ':' :: rest1 =>
        let (ms, rest2) := spanDigits rest1
        if ms.length ≠ 2 then none
        else match dropWs rest2 with
          | [a, m] =>
              if (a = 'A' ∨ a = 'a') ∧ (m = 'M' ∨ m = 'm') then
                some (digitsToNat hs 0, digitsToNat ms 0, false)
              else if (a = 'P' ∨ a = 'p') ∧ (m = 'M' ∨ m = 'm') then
                some (digitsToNat hs 0, digitsToNat ms 0, true)
              else none
          | _ => none
    | _ => none

/-- 12-hour to 24-hour conversion (src/content/content.js lines 55-57). -/
def to24Hour (h : Nat) (isPM : Bool) : Nat :=
  if isPM ∧ h ≠ 12 then h + 12
  else if ¬isPM ∧ h = 12 then 0
  else h

/-- Days since the Unix epoch of a civil date (proleptic Gregorian),
truncated-division form.  Out-of-range day numbers normalize forward,
matching JavaScript Date field normalization. -/
def daysFromCivil (y m d : Int) : Int :=
  let y1 := if m ≤ 2 then y - 1 else y
  let era := Int.tdiv (if 0 ≤ y1 then y1 else y1 - 399) 400
  let yoe := y1 - era * 400
  let mp := Int.emod (m + 9) 12
  let doy := Int.tdiv (153 * mp + 2) 5 + d - 1
  let doe := yoe * 365 + Int.tdiv yoe 4 - Int.tdiv yoe 100 + doy
  era * 146097 + doe - 719468

/-- Civil date (year, month, day) of a days-since-epoch count. -/
def civilFromDays (z0 : Int) : Int × Int × Int :=
  let z := z0 + 719468
  let era := Int.tdiv (if 0 ≤ z then z else z - 146096) 146097
  let doe := z - era * 146097
  let yoe := Int.tdiv (doe - Int.tdiv doe 1460 + Int.tdiv doe 36524 - Int.tdiv doe 146096) 365
  let y := yoe + era * 400
  let doy := doe - (365 * yoe + Int.tdiv yoe 4 - Int.tdiv yoe 100)
  let mp := Int.tdiv (5 * doy + 2) 153
  let d := doy - Int.tdiv (153 * mp + 2) 5 + 1
  let m := mp + (if mp < 10 then 3 else -9)
  (y + (if m ≤ 2 then 1 else 0), m, d)

/-- Millisecond instant of a civil date at UTC midnight. -/
def msOfCivil (y m d : Int) : Int := daysFromCivil y m d * 86400000

/-- UTC calendar year of an instant (`getFullYear` under the UTC model). -/
def yearOfInstant (t : Int) : Int := (civilFromDays (Int.fdiv t 86400000)).1

/-- UTC midnight of the day containing an instant. -/
def dayStartOf (t : Int) : Int := t - Int.emod t 86400000

/-- Leap-year test. -/
def isLeapYear (y : Int) : Bool := y % 4 = 0 ∧ (y % 100 ≠ 0 ∨ y % 400 = 0)

/-- Day count of a month, for validating `Mon DD` labels the way the V8
date parser does. -/
def daysInMonth (y m : Int) : Int :=
  if m = 2 then (if isLeapYear y then 29 else 28)
  else if m = 4 ∨ m = 6 ∨ m = 9 ∨ m = 11 then 30
  else 31

/-- Month token table: three-letter abbreviation or full English name,
already lower-cased. -/
def monthOfToken (tok : List Char) : Option Int :=
  let names : List (List Char × List Char × Int) :=
    [(['j','a','n'], ['j','a','n','u','a','r','y'], 1),
     (['f','e','b'], ['f','e','b','r','u','a','r','y'], 2),
     (['m','a','r'], ['m','a','r','c','h'], 3),
     (['a','p','r'], ['a','p','r','i','l'], 4),
     (['m','a','y'], ['m','a','y'], 5),
     (['j','u','n'], ['j','u','n','e'], 6),
     (['j','u','l'], ['j','u','l','y'], 7),
     (['a','u','g'], ['a','u','g','u','s','t'], 8),
     (['s','e','p'], ['s','e','p','t','e','m','b','e','r'], 9),
     (['o','c','t'], ['o','c','t','o','b','e','r'], 10),
     (['n','o','v'], ['n','o','v','e','m','b','e','r'], 11),
     (['d','e','c'], ['d','e','c','e','m','b','e','r'], 12)]
  (names.find? (fun e => tok = e.1 ∨ tok = e.2.1)).map (fun e => e.2.2)

/-- Single-pass tokenizer worker: `cur` is the current token read so far,
in reverse. -/
def wsTokensAux : List Char → List Char → List (List Char)
  | [], cur => if cur = [] then [] else [cur.reverse]
  | c :: cs, cur =>
      if c.isWhitespace then
        if cur = [] then wsTokensAux cs [] else cur.reverse :: wsTokensAux cs []
      else wsTokensAux cs (c :: cur)

/-- Whitespace-separated tokens of a character list. -/
def wsTokens (cs : List Char) : List (List Char) := wsTokensAux cs []

/-- Parse a `Mon DD` label (the only year-free form the V8 parser accepts
for the `new Date(label + ", " + year)` call in src/content/content.js
line 79): a month-name token followed by a day-number token. -/
def parseMonthDay (cs : List Char) : Option (Int × Int) :=
  match wsTokens cs with
  | [t1, t2] =>
      match monthOfToken (lowerChars t1) with
      | some m =>
          if t2 ≠ [] ∧ t2.all Char.isDigit then some (m, (digitsToNat t2 0 : Int))
          else none
      | none => none
  | _ => none

/-- `parseRelativeDate` (src/content/content.js lines 17-89) under the
UTC model: the returned instant is the one whose ISO serialization the
JavaScript function returns; `none` models its `null`.  The recognized
forms are tried in source order. -/
def parseRelativeDate (now : Int) (dateStr : Option String) : Option Int :=
  match dateStr with
  | none => none
  | some s =>
    if s = "" then none
    else
      let trimmed := trimChars s.data
      let cleaned := lowerChars trimmed
      match matchShortRel cleaned with
      | some (v, u) => some (now - (v : Int) * shortUnitMs u)
      | none =>
        if cleaned = ['y','e','s','t','e','r','d','a','y'] then some (now - 86400000)
        else if cleaned = ['t','o','d','a','y'] then some now
        else match matchTimeOnly trimmed with
        | some (h, mins, isPM) =>
            some (dayStartOf now + (to24Hour h isPM : Int) * 3600000 + (mins : Int) * 60000)
        | none => match matchLongRel cleaned with
          | some (v, ms) => some (now - (v : Int) * ms)
          | none => match parseMonthDay trimmed with
            | some (mon, d) =>
                let currentYear := yearOfInstant now
                if 1 ≤ d ∧ d ≤ daysInMonth currentYear mon then
                  let parsed := msOfCivil currentYear mon d
                  if parsed > now then some (msOfCivil (currentYear - 1) mon d)
                  else some parsed
                else none
            | none => none

/-- Zero-padded decimal rendering of a natural number to a given width. -/
def padNum (width n : Nat) : String :=
  let s := toString n
  String.mk (List.replicate (width - s.data.length) '0') ++ s

/-- ISO-8601 serialization of an instant (`Date.prototype.toISOString`
under the UTC model). -/
def toIsoString (t : Int) : String :=
  let days := Int.fdiv t 86400000
  let msod := (t - days * 86400000).toNat
  let ymd := civilFromDays days
  padNum 4 ymd.1.toNat ++ "-" ++ padNum 2 ymd.2.1.toNat ++ "-" ++ padNum 2 ymd.2.2.toNat
    ++ "T" ++ padNum 2 (msod / 3600000) ++ ":" ++ padNum 2 (msod % 3600000 / 60000)
    ++ ":" ++ padNum 2 (msod % 60000 / 1000) ++ "." ++ padNum 3 (msod % 1000) ++ "Z"

/-- URL validity check of the content script (src/content/content.js
lines 94-110, `isValidArticleUrl`); textually the same cascade as the
background worker's `isValidPostUrl`. -/
def isValidArticleUrl (url : String) : Bool :=
  if url = "" then false
  else if !(jsIncludes url "/p/") then false
  else if jsIncludes url "/comments" then false
  else if jsIncludes url "/comment/" then false
  else if jsIncludes url "/comment?" then false
  else if jsEndsWith url "/comment" then false
  else if jsIncludes url "/subscribe" || jsIncludes url "/about" || jsIncludes url "/archive" then false
  else if jsIncludes url "?action=" || jsIncludes url "&action=" then false
  else if jsIncludes url "/discussion" then false
  else true

/-- Image element as seen by the cover-image cascade: primary `src`,
`dataset.src`, and the `data-src` attribute. -/
structure ImgEl where
  src : Option String
  datasetSrc : Option String
  attrDataSrc : Option String

/-- DOM post-link element abstracted to the queries
`extractPostFromElement` performs on it: each field is the text content
or attribute the corresponding selector cascade resolves to (`none` when
the selector matches nothing). -/
structure PostElement where
  href : String
  titleText : Option String
  subtitleText : Option String
  pubNameText : Option String
  logoSrc : Option String
  coverImgs : List (Option ImgEl)
  dateText : Option String
  metaText : Option String
  hasUnreadDot : Bool

/-- Regex `/^\d+\s+Comments?$/i` on a title (src/content/content.js
line 127). -/
def isCommentCountTitle (t : String) : Bool :=
  match spanDigits t.data with
  | ([], _) => false
  | (_ :: _, rest) =>
      let rest1 := dropWs rest
      if rest1.length = rest.length then false
      else
        let low := lowerChars rest1
        low = ['c','o','m','m','e','n','t'] || low = ['c','o','m','m','e','n','t','s']

/-- JavaScript `x || dflt` for an optional string: the default replaces
`undefined` and the empty string. -/
def jsOrString (o : Option String) (dflt : String) : String :=
  match o with
  | some s => if s = "" then dflt else s
  | none => dflt

/-- First truthy of a chain of optional strings, or `""` when all are
falsy (`a || b || c`). -/
def firstTruthy : List (Option String) → String
  | [] => ""
  | none :: rest => firstTruthy rest
  | some s :: rest => if s = "" then firstTruthy rest else s

/-- Cover-image cascade (src/content/content.js lines 146-163): first
selector whose image yields a source starting with `http` wins; an image
with a non-`http` source does not stop the cascade. -/
def coverFrom : List (Option ImgEl) → Option String
  | [] => none
  | none :: rest => coverFrom rest
  | some img :: rest =>
      let imgSrc := firstTruthy [img.src, img.datasetSrc, img.attrDataSrc]
      if imgSrc ≠ "" ∧ jsStartsWith imgSrc "http" then some imgSrc
      else coverFrom rest

/-- Post id derived from the URL (src/content/content.js line 187):
`url.replace(/[^a-zA-Z0-9]/g, '_')`. -/
def deriveId (url : String) : String :=
  String.mk (url.data.map (fun c =>
    if ('a' ≤ c ∧ c ≤ 'z') ∨ ('A' ≤ c ∧ c ≤ 'Z') ∨ ('0' ≤ c ∧ c ≤ '9') then c else '_'))

/-- Author segment before the first bullet separator
(src/content/content.js lines 171-180): `metaText.split('∙')[0].trim()`. -/
def authorOfMeta (metaText : String) : String :=
  jsTrim (String.mk (metaText.data.takeWhile (fun c => c ≠ '∙')))

/-- `extractPostFromElement` (src/content/content.js lines 115-206) at
extraction instant `now`: `none` models the function returning `null`
(candidate rejected). -/
def extractPostFromElement (now : Int) (el : PostElement) : Option Post :=
  let url := el.href
  if !isValidArticleUrl url then none
  else
    match el.titleText.map jsTrim with
    | none => none
    | some t =>
      if t = "" then none
      else if t.data.length < 5 then none
      else if isCommentCountTitle t then none
      else
        let subtitle0 := (el.subtitleText.map jsTrim).getD ""
        let subtitle := if subtitle0 = t then "" else subtitle0
        let publication := jsOrString (el.pubNameText.map jsTrim) "Unknown"
        if publication = "Unknown" then none
        else
          some {
            id := deriveId url
            title := t
            subtitle := subtitle
            publication := publication
            publicationLogo := el.logoSrc
            author := (el.metaText.map authorOfMeta).getD ""
            coverImage := coverFrom el.coverImgs
            url := url
            publishedAt := (parseRelativeDate now (el.dateText.map jsTrim)).map toIsoString
            isRead := !el.hasUnreadDot
            extractedAt := toIsoString now }

/-- Events driving the refresh orchestrator (src/unnamed/part_001 lines
201-353).  `callRefresh inv res` is one `refreshFeed` invocation (`inv`
names the invocation and its promise; `res` is the created tab id, or
`none` when `chrome.tabs.create` fails).  `timerFire inv t` is the
30-second timeout scheduled by invocation `inv` for tab `t`.
`postsExtracted tab ok` is a `POSTS_EXTRACTED` message from `tab`
(`ok` = whether `savePosts` succeeds).  `tabLoaded` is the tab-updated
"complete" signal; it only triggers extraction in the content context and
does not change the orchestrator's own state. -/
inductive OrchEv where
  | callRefresh (inv : Nat) (res : Option Nat)
  | tabLoaded (tab : Nat)
  | timerFire (inv : Nat) (tab : Nat)
  | postsExtracted (tab : Nat) (ok : Bool)
deriving DecidableEq

/-- Settlement outcome of a refresh invocation's promise. -/
inductive Outcome where
  | resolvedP
  | rejectedP
deriving DecidableEq

/-- Orchestrator state: the module-level mutable bindings of
src/unnamed/part_001 lines 202-205, plus specification bookkeeping.
`owner` is the invocation whose `resolve`/`reject` closures are installed
in `pendingRefreshResolve`/`pendingRefreshReject` (`none` when both are
null); `listener` is the invocation owning `pendingTabUpdateListener`;
`timers` are the scheduled, not yet fired 30-second timeouts; `settleLog`
records every resolve/reject call with its invocation; `used` lists the
invocations seen so far. -/
structure OrchState where
  pendingRefreshTabId : Option Nat
  owner : Option Nat
  listener : Option Nat
  timers : List (Nat × Nat)
  settleLog : List (Nat × Outcome)
  used : List Nat
deriving DecidableEq

/-- Initial orchestrator state. -/
def orchInit : OrchState :=
  { pendingRefreshTabId := none, owner := none, listener := none,
    timers := [], settleLog := [], used := [] }

/-- One orchestrator transition.  `callRefresh`: lines 210-285 (previous
tab discarded, resolver pair and load listener installed, tab created —
on failure the listener is removed and the promise rejected, on success
the pending tab id is recorded and the timeout scheduled).  `timerFire`:
lines 268-283 (listener removed unconditionally; if the pending tab still
matches, pending state is cleared and the installed reject fires).
`postsExtracted`: lines 301-333 and 340-353 (only a message whose sender
tab id is truthy and equals the pending tab id reaches
`handleRefreshPosts`; it clears the listener and pending tab and settles
the installed promise; any other message takes the plain `savePosts`
branch, which does not touch orchestrator state). -/
def orchStep (s : OrchState) (e : OrchEv) : OrchState :=
  match e with
  | .callRefresh inv res =>
      match res with
      | none =>
          { pendingRefreshTabId := none, owner := some inv, listener := none,
            timers := s.timers, settleLog := s.settleLog ++ [(inv, Outcome.rejectedP)],
            used := s.used ++ [inv] }
      | some t =>
          { pendingRefreshTabId := some t, owner := some inv, listener := some inv,
            timers := s.timers ++ [(inv, t)], settleLog := s.settleLog,
            used := s.used ++ [inv] }
  | .tabLoaded _ => s
  | .timerFire inv t =>
      if (inv, t) ∈ s.timers then
        if s.pendingRefreshTabId = some t then
          match s.owner with
          | some j =>
              { pendingRefreshTabId := none, owner := none, listener := none,
                timers := s.timers.erase (inv, t),
                settleLog := s.settleLog ++ [(j, Outcome.rejectedP)], used := s.used }
          | none =>
              { pendingRefreshTabId := none, owner := none, listener := none,
                timers := s.timers.erase (inv, t), settleLog := s.settleLog, used := s.used }
        else
          { pendingRefreshTabId := s.pendingRefreshTabId, owner := s.owner, listener := none,
            timers := s.timers.erase (inv, t), settleLog := s.settleLog, used := s.used }
      else s
  | .postsExtracted tab ok =>
      if tab ≠ 0 ∧ s.pendingRefreshTabId = some tab then
        match s.owner with
        | some j =>
            { pendingRefreshTabId := none, owner := none, listener := none,
              timers := s.timers,
              settleLog := s.settleLog
                ++ [(j, if ok then Outcome.resolvedP else Outcome.rejectedP)],
              used := s.used }
        | none =>
            { pendingRefreshTabId := none, owner := none, listener := none,
              timers := s.timers, settleLog := s.settleLog, used := s.used }
      else s

/-- Run a trace of events from a state. -/
def orchRun (s : OrchState) (tr : List OrchEv) : OrchState := tr.foldl orchStep s

/-- Number of resolve/reject calls recorded for invocation `i`. -/
def settleCount (s : OrchState) (i : Nat) : Nat :=
  s.settleLog.countP (fun e => e.1 = i)

/-- The `callRefresh` events of a trace, as (invocation, tab result). -/
def callEvsOf (tr : List OrchEv) : List (Nat × Option Nat) :=
  tr.filterMap (fun e => match e with
    | .callRefresh i r => some (i, r)
    | _ => none)

/-- Trace wellformedness: distinct `refreshFeed` invocations are distinct
promises, so their labels are pairwise distinct. -/
def WFTrace (tr : List OrchEv) : Prop :=
  ((callEvsOf tr).map Prod.fst).Pairwise (fun a b => a ≠ b)

/-! ### Helper lemmas about the url-keyed map -/

/-- The url keys of a map, in order. -/
def urlsOf (m : List Post) : List String := m.map (fun p => p.url)

theorem mem_urlsOf {m : List Post} {u : String} :
    u ∈ urlsOf m ↔ ∃ q ∈ m, q.url = u := by
  simp [urlsOf, eq_comm]

theorem any_url_eq_true_iff {m : List Post} {u : String} :
    (m.any (fun q => q.url = u) = true) ↔ u ∈ urlsOf m := by
  simp [List.any_eq_true, mem_urlsOf]

theorem mapSet_present {m : List Post} {v : Post} (h : v.url ∈ urlsOf m) :
    mapSet m v = m.map (fun q => if q.url = v.url then v else q) := by
  unfold mapSet
  rw [if_pos (any_url_eq_true_iff.mpr h)]

theorem mapSet_absent {m : List Post} {v : Post} (h : v.url ∉ urlsOf m) :
    mapSet m v = m ++ [v] := by
  unfold mapSet
  rw [if_neg]
  intro hc
  exact h (any_url_eq_true_iff.mp hc)

theorem urlsOf_map_replace {m : List Post} {v : Post} {w : String} (hv : v.url = w) :
    urlsOf (m.map (fun q => if q.url = w then v else q)) = urlsOf m := by
  unfold urlsOf
  rw [List.map_map]
  refine List.map_congr_left ?_
  intro q _
  by_cases h : q.url = w
  · simp [h, hv]
  · simp [h]

theorem urlsOf_mapSet_present {m : List Post} {v : Post} (h : v.url ∈ urlsOf m) :
    urlsOf (mapSet m v) = urlsOf m := by
  rw [mapSet_present h, urlsOf_map_replace rfl]

theorem urlsOf_mapSet_absent {m : List Post} {v : Post} (h : v.url ∉ urlsOf m) :
    urlsOf (mapSet m v) = urlsOf m ++ [v.url] := by
  rw [mapSet_absent h]
  simp [urlsOf]

theorem mem_urlsOf_mapSet {m : List Post} {v : Post} {u : String} :
    u ∈ urlsOf (mapSet m v) ↔ u ∈ urlsOf m ∨ u = v.url := by
  by_cases h : v.url ∈ urlsOf m
  · rw [urlsOf_mapSet_present h]
    constructor
    · exact Or.inl
    · rintro (hu | rfl)
      · exact hu
      · exact h
  · rw [urlsOf_mapSet_absent h]
    simp

theorem nodup_urlsOf_mapSet {m : List Post} {v : Post} (h : (urlsOf m).Nodup) :
    (urlsOf (mapSet m v)).Nodup := by
  by_cases hv : v.url ∈ urlsOf m
  · rw [urlsOf_mapSet_present hv]
    exact h
  · rw [urlsOf_mapSet_absent hv]
    simp [List.nodup_append, h, hv]

theorem mem_of_mem_mapSet {m : List Post} {v q : Post} (h : q ∈ mapSet m v) :
    q ∈ m ∨ q = v := by
  by_cases hv : v.url ∈ urlsOf m
  · rw [mapSet_present hv] at h
    obtain ⟨q₀, hq₀, hq⟩ := List.mem_map.mp h
    by_cases hu : q₀.url = v.url
    · right
      rw [if_pos hu] at hq
      exact hq.symm
    · left
      rw [if_neg hu] at hq
      exact hq ▸ hq₀
  · rw [mapSet_absent hv] at h
    rcases List.mem_append.mp h with h | h
    · exact Or.inl h
    · exact Or.inr (List.mem_singleton.mp h)

theorem mem_mapSet_present_cases {m : List Post} {v e : Post}
    (hv : v.url ∈ urlsOf m) (he : e ∈ mapSet m v) :
    e = v ∨ (e ∈ m ∧ e.url ≠ v.url) := by
  rw [mapSet_present hv] at he
  obtain ⟨q₀, hq₀, hq⟩ := List.mem_map.mp he
  by_cases hqq : q₀.url = v.url
  · left
    rw [if_pos hqq] at hq
    exact hq.symm
  · right
    rw [if_neg hqq] at hq
    exact ⟨hq ▸ hq₀, hq ▸ hqq⟩

theorem mapGet_eq_some_mem {m : List Post} {u : String} {e : Post}
    (h : mapGet m u = some e) : e ∈ m ∧ e.url = u := by
  refine ⟨List.mem_of_find?_eq_some h, ?_⟩
  have := List.find?_some h
  simpa using this

theorem mapGet_eq_none_iff {m : List Post} {u : String} :
    mapGet m u = none ↔ u ∉ urlsOf m := by
  unfold mapGet
  rw [List.find?_eq_none]
  constructor
  · intro h hu
    obtain ⟨q, hq, hqu⟩ := mem_urlsOf.mp hu
    exact h q hq (by simp [hqu])
  · intro h q hq hqu
    exact h (mem_urlsOf.mpr ⟨q, hq, by simpa using hqu⟩)

theorem mapGet_isSome_of_mem {m : List Post} {u : String} (h : u ∈ urlsOf m) :
    ∃ e, mapGet m u = some e := by
  cases hg : mapGet m u with
  | none => exact absurd h (mapGet_eq_none_iff.mp hg)
  | some e => exact ⟨e, rfl⟩

theorem mapGet_of_nodup_mem {m : List Post} {e : Post}
    (hn : (urlsOf m).Nodup) (he : e ∈ m) : mapGet m e.url = some e := by
  induction m with
  | nil => cases he
  | cons q rest ih =>
      rcases List.mem_cons.mp he with rfl | hrest
      · unfold mapGet
        simp
      · have hn2 : (∀ x ∈ rest, ¬x.url = q.url) ∧ (urlsOf rest).Nodup := by
          simpa [urlsOf, List.nodup_cons] using hn
        have hq : ¬(q.url = e.url) := fun hqe => hn2.1 e hrest hqe.symm
        have hn' : (urlsOf rest).Nodup := hn2.2
        unfold mapGet at ih ⊢
        rw [List.find?_cons_of_neg _ (by simpa using hq)]
        exact ih hn' hrest

/-! ### Lemmas about the merge fold -/

theorem mergePostStep_get_some {m : List Post} {p e₀ : Post}
    (h : mapGet m p.url = some e₀) :
    mergePostStep m p = mapSet m (setRead p e₀.isRead) := by
  unfold mergePostStep
  rw [h]

theorem mergePostStep_get_none {m : List Post} {p : Post}
    (h : mapGet m p.url = none) : mergePostStep m p = m ++ [p] := by
  unfold mergePostStep
  rw [h]
  exact mapSet_absent (mapGet_eq_none_iff.mp h)

theorem urlsOf_mergePostStep_sup {m : List Post} {p : Post} {u : String}
    (h : u ∈ urlsOf m) : u ∈ urlsOf (mergePostStep m p) := by
  unfold mergePostStep
  cases hg : mapGet m p.url with
  | some e₀ => exact mem_urlsOf_mapSet.mpr (Or.inl h)
  | none => exact mem_urlsOf_mapSet.mpr (Or.inl h)

theorem urlsOf_mergePostStep_self {m : List Post} {p : Post} :
    p.url ∈ urlsOf (mergePostStep m p) := by
  unfold mergePostStep
  cases hg : mapGet m p.url with
  | some e₀ =>
      refine mem_urlsOf_mapSet.mpr (Or.inr ?_)
      simp [setRead]
  | none => exact mem_urlsOf_mapSet.mpr (Or.inr rfl)

theorem nodup_urlsOf_mergePostStep {m : List Post} {p : Post}
    (h : (urlsOf m).Nodup) : (urlsOf (mergePostStep m p)).Nodup := by
  unfold mergePostStep
  cases mapGet m p.url with
  | some e₀ => exact nodup_urlsOf_mapSet h
  | none => exact nodup_urlsOf_mapSet h

theorem nodup_urlsOf_mapOnlyFold {b : List Post} :
    ∀ {m : List Post}, (urlsOf m).Nodup → (urlsOf (mapOnlyFold m b)).Nodup := by
  induction b with
  | nil => intro m h; exact h
  | cons p rest ih =>
      intro m h
      exact ih (nodup_urlsOf_mergePostStep h)

theorem urlsOf_mapOnlyFold_sup {b : List Post} :
    ∀ {m : List Post} {u : String}, u ∈ urlsOf m → u ∈ urlsOf (mapOnlyFold m b) := by
  induction b with
  | nil => intro m u h; exact h
  | cons p rest ih =>
      intro m u h
      exact ih (urlsOf_mergePostStep_sup h)

theorem urlsOf_mapOnlyFold_batch {b : List Post} :
    ∀ {m : List Post} {p : Post}, p ∈ b → p.url ∈ urlsOf (mapOnlyFold m b) := by
  induction b with
  | nil => intro m p h; cases h
  | cons q rest ih =>
      intro m p h
      rcases List.mem_cons.mp h with rfl | h
      · show p.url ∈ urlsOf (mapOnlyFold (mergePostStep m p) rest)
        exact urlsOf_mapOnlyFold_sup urlsOf_mergePostStep_self
      · exact ih h

theorem foldl_mapSet_append {l : List Post} :
    ∀ {acc : List Post}, (urlsOf (acc ++ l)).Nodup → l.foldl mapSet acc = acc ++ l := by
  induction l with
  | nil => intro acc _; simp
  | cons v rest ih =>
      intro acc h
      have happ : ((urlsOf acc) ++ urlsOf (v :: rest)).Nodup := by
        have : urlsOf (acc ++ v :: rest) = urlsOf acc ++ urlsOf (v :: rest) :=
          List.map_append _ _ _
        rwa [this] at h
      have hv : v.url ∉ urlsOf acc := by
        intro hv
        exact (List.disjoint_of_nodup_append happ) hv (by simp [urlsOf])
      have step : mapSet acc v = acc ++ [v] := mapSet_absent hv
      have h' : (urlsOf ((acc ++ [v]) ++ rest)).Nodup := by
        rw [List.append_assoc, List.singleton_append]
        exact h
      calc (v :: rest).foldl mapSet acc = rest.foldl mapSet (acc ++ [v]) := by
            simp [List.foldl_cons, step]
        _ = (acc ++ [v]) ++ rest := ih h'
        _ = acc ++ v :: rest := by simp [List.append_assoc]

theorem buildMap_eq_self {l : List Post} (h : (urlsOf l).Nodup) : buildMap l = l := by
  have h2 : l.foldl mapSet ([] : List Post) = [] ++ l :=
    foldl_mapSet_append (by simpa [urlsOf] using h)
  simpa [buildMap] using h2

theorem mem_of_mem_foldl_mapSet {l : List Post} :
    ∀ {acc : List Post} {q : Post}, q ∈ l.foldl mapSet acc → q ∈ acc ∨ q ∈ l := by
  induction l with
  | nil => intro acc q h; exact Or.inl h
  | cons v rest ih =>
      intro acc q h
      rcases ih (by simpa [List.foldl_cons] using h) with h1 | h1
      · rcases mem_of_mem_mapSet h1 with h2 | h2
        · exact Or.inl h2
        · exact Or.inr (h2 ▸ List.mem_cons_self v rest)
      · exact Or.inr (List.mem_cons_of_mem v h1)

theorem nodup_urlsOf_buildMap {l : List Post} : (urlsOf (buildMap l)).Nodup := by
  have general : ∀ (l' : List Post) (acc : List Post), (urlsOf acc).Nodup →
      (urlsOf (l'.foldl mapSet acc)).Nodup := by
    intro l'
    induction l' with
    | nil => intro acc h; exact h
    | cons v rest ih =>
        intro acc h
        exact ih (mapSet acc v) (nodup_urlsOf_mapSet h)
  exact general l [] (by simp [urlsOf])

theorem urlsOf_buildMap_sup {l : List Post} {p : Post} (h : p ∈ l) :
    p.url ∈ urlsOf (buildMap l) := by
  have general : ∀ (l' : List Post) (acc : List Post) (p : Post), p ∈ l' →
      p.url ∈ urlsOf (l'.foldl mapSet acc) := by
    intro l'
    induction l' with
    | nil => intro acc p h; cases h
    | cons v rest ih =>
        intro acc p h
        rcases List.mem_cons.mp h with rfl | h
        · have base : p.url ∈ urlsOf (mapSet acc p) := mem_urlsOf_mapSet.mpr (Or.inr rfl)
          have general2 : ∀ (l'' : List Post) (acc' : List Post) (u : String),
              u ∈ urlsOf acc' → u ∈ urlsOf (l''.foldl mapSet acc') := by
            intro l''
            induction l'' with
            | nil => intro acc' u h; exact h
            | cons w rest' ih2 =>
                intro acc' u h
                exact ih2 (mapSet acc' w) u (mem_urlsOf_mapSet.mpr (Or.inl h))
          exact general2 rest (mapSet acc p) p.url base
        · exact ih (mapSet acc v) p h
  exact general l [] p h

/-! ### The merged map characterized pointwise -/

/-- Last occurrence of a url in a batch. -/
def lastOcc (l : List Post) (u : String) : Option Post :=
  (l.filter (fun p => p.url = u)).getLast?

/-- Final value the merge fold writes for an entry whose url occurs in the
batch: the last occurrence of that url with `isRead` forced to the stored
value; entries whose url does not occur are untouched. -/
def finalVal (l : List Post) (e : Post) : Post :=
  match lastOcc l e.url with
  | some q => setRead q e.isRead
  | none => e

theorem setRead_self (p : Post) : setRead p p.isRead = p := rfl

theorem setRead_isRead (p : Post) (b : Bool) : (setRead p b).isRead = b := rfl

theorem setRead_url (p : Post) (b : Bool) : (setRead p b).url = p.url := rfl

theorem lastOcc_cons_ne {p : Post} {l : List Post} {u : String} (h : ¬p.url = u) :
    lastOcc (p :: l) u = lastOcc l u := by
  unfold lastOcc
  rw [List.filter_cons_of_neg (by simpa using h)]

theorem lastOcc_concat_self {l : List Post} {p : Post} {u : String} (h : p.url = u) :
    lastOcc (l ++ [p]) u = some p := by
  unfold lastOcc
  rw [List.filter_append, List.filter_cons_of_pos (by simpa using h)]
  simp

theorem lastOcc_concat_ne {l : List Post} {p : Post} {u : String} (h : ¬p.url = u) :
    lastOcc (l ++ [p]) u = lastOcc l u := by
  unfold lastOcc
  rw [List.filter_append, List.filter_cons_of_neg (by simpa using h)]
  simp

theorem lastOcc_cons_self_of_mem {p : Post} {l : List Post} {u : String}
    (hp : p.url = u) {q : Post} (h : lastOcc l u = some q) :
    lastOcc (p :: l) u = some q := by
  unfold lastOcc at h ⊢
  rw [List.filter_cons_of_pos (by simpa using hp)]
  cases hf : l.filter (fun x => x.url = u) with
  | nil => rw [hf] at h; cases h
  | cons a as =>
      rw [hf] at h
      rw [List.getLast?_cons_cons]
      exact h

theorem lastOcc_cons_self_of_none {p : Post} {l : List Post} {u : String}
    (hp : p.url = u) (h : lastOcc l u = none) :
    lastOcc (p :: l) u = some p := by
  unfold lastOcc at h ⊢
  rw [List.filter_cons_of_pos (by simpa using hp)]
  cases hf : l.filter (fun x => x.url = u) with
  | nil => simp
  | cons a as =>
      rw [hf] at h
      simp at h

/-- Every entry of the merged map whose url occurs in the batch equals the
batch's last occurrence of that url with `isRead` forced to the entry's
own flag; every other entry comes from the initial map. -/
theorem mem_mapOnlyFold_charac {l : List Post} :
    ∀ {m : List Post} {e : Post}, e ∈ mapOnlyFold m l →
      (match lastOcc l e.url with
       | some q => e = setRead q e.isRead
       | none => e ∈ m) := by
  induction l using List.reverseRecOn with
  | nil =>
      intro m e he
      simpa [lastOcc] using he
  | append_singleton l p ih =>
      intro m e he
      rw [mapOnlyFold, List.foldl_concat] at he
      change e ∈ mergePostStep (mapOnlyFold m l) p at he
      set M := mapOnlyFold m l with hM
      by_cases hu : e.url = p.url
      · rw [lastOcc_concat_self hu.symm]
        cases hg : mapGet M p.url with
        | some e₀ =>
            rw [mergePostStep_get_some hg] at he
            have hvm : (setRead p e₀.isRead).url ∈ urlsOf M := by
              rw [setRead_url]
              obtain ⟨hm, hurl⟩ := mapGet_eq_some_mem hg
              exact mem_urlsOf.mpr ⟨e₀, hm, hurl⟩
            rcases mem_mapSet_present_cases hvm he with rfl | ⟨_, hne⟩
            · rfl
            · exact absurd (hu.trans (setRead_url p e₀.isRead).symm) hne
        | none =>
            rw [mergePostStep_get_none hg] at he
            rcases List.mem_append.mp he with hin | hin
            · exfalso
              exact (mapGet_eq_none_iff.mp hg)
                (mem_urlsOf.mpr ⟨e, hin, hu⟩)
            · rw [List.mem_singleton.mp hin]
              constructor
      · rw [lastOcc_concat_ne (fun h => hu h.symm)]
        cases hg : mapGet M p.url with
        | some e₀ =>
            rw [mergePostStep_get_some hg] at he
            rcases mem_of_mem_mapSet he with hin | rfl
            · exact ih hin
            · exact absurd (setRead_url p e₀.isRead) hu
        | none =>
            rw [mergePostStep_get_none hg] at he
            rcases List.mem_append.mp he with hin | hin
            · exact ih hin
            · exact absurd (congrArg Post.url (List.mem_singleton.mp hin)) hu

/-- When every batch url is already a key of a duplicate-free map, the
merge fold rewrites the map in place: the result is the pointwise image
under `finalVal`. -/
theorem mapOnlyFold_eq_map {l : List Post} :
    ∀ {m : List Post}, (urlsOf m).Nodup → (∀ p ∈ l, p.url ∈ urlsOf m) →
      mapOnlyFold m l = m.map (fun e => finalVal l e) := by
  induction l with
  | nil =>
      intro m _ _
      have : ∀ e : Post, finalVal [] e = e := by
        intro e
        simp [finalVal, lastOcc]
      calc mapOnlyFold m [] = m := rfl
        _ = m.map (fun e => finalVal [] e) := (List.map_id'' this m).symm
  | cons p l ih =>
      intro m hn hpres
      obtain ⟨e₀, hg⟩ := mapGet_isSome_of_mem (hpres p (List.mem_cons_self p l))
      have he₀ : e₀ ∈ m ∧ e₀.url = p.url := mapGet_eq_some_mem hg
      have hstep : mergePostStep m p = mapSet m (setRead p e₀.isRead) :=
        mergePostStep_get_some hg
      have hvm : (setRead p e₀.isRead).url ∈ urlsOf m := by
        rw [setRead_url]
        exact mem_urlsOf.mpr ⟨e₀, he₀.1, he₀.2⟩
      have hrepl : mergePostStep m p
          = m.map (fun q => if q.url = p.url then setRead p e₀.isRead else q) := by
        rw [hstep, mapSet_present hvm]
        simp [setRead_url]
      have hurls : urlsOf (mergePostStep m p) = urlsOf m := by
        rw [hrepl]
        exact urlsOf_map_replace (setRead_url p e₀.isRead)
      have hfold : mapOnlyFold m (p :: l) = mapOnlyFold (mergePostStep m p) l := rfl
      have ihres := ih (m := mergePostStep m p) (hurls ▸ hn)
        (fun q hq => hurls ▸ hpres q (List.mem_cons_of_mem p hq))
      rw [hfold, ihres, hrepl, List.map_map]
      refine List.map_congr_left ?_
      intro e hem
      show finalVal l (if e.url = p.url then setRead p e₀.isRead else e) = finalVal (p :: l) e
      by_cases hu : e.url = p.url
      · rw [if_pos hu]
        have he₀e : e₀ = e := by
          have h1 : mapGet m e.url = some e := mapGet_of_nodup_mem hn hem
          have h2 : mapGet m e.url = some e₀ := by rw [hu]; exact hg
          exact Option.some.inj (h2.symm.trans h1)
        cases hlo : lastOcc l p.url with
        | some q =>
            have lhs : finalVal l (setRead p e₀.isRead)
                = setRead q (setRead p e₀.isRead).isRead := by
              unfold finalVal
              rw [setRead_url, hlo]
            have rhs : finalVal (p :: l) e = setRead q e.isRead := by
              unfold finalVal
              rw [hu, lastOcc_cons_self_of_mem rfl hlo]
            rw [lhs, rhs, setRead_isRead]
            rw [he₀e]
        | none =>
            have lhs : finalVal l (setRead p e₀.isRead) = setRead p e₀.isRead := by
              unfold finalVal
              rw [setRead_url, hlo]
            have rhs : finalVal (p :: l) e = setRead p e.isRead := by
              unfold finalVal
              rw [hu, lastOcc_cons_self_of_none rfl hlo]
            rw [lhs, rhs, he₀e]
      · rw [if_neg hu]
        unfold finalVal
        rw [lastOcc_cons_ne (fun h => hu h.symm)]

/-- The map component of the counter-threading fold is `mapOnlyFold`. -/
theorem foldl_mergeStepFold_fst (b : List Post) :
    ∀ (m : List Post) (a u : Nat),
      (b.foldl mergeStepFold (m, a, u)).1 = mapOnlyFold m b := by
  induction b with
  | nil => intro m a u; rfl
  | cons p rest ih =>
      intro m a u
      show (rest.foldl mergeStepFold (mergeStepFold (m, a, u) p)).1
          = mapOnlyFold (mergePostStep m p) rest
      unfold mergeStepFold mergePostStep
      cases mapGet m p.url with
      | some e₀ => exact ih _ _ _
      | none => exact ih _ _ _

/-- When every batch url is already a key of the map, the fold counts
every batch element as an update and none as an addition. -/
theorem foldl_mergeStepFold_counts (b : List Post) :
    ∀ (m : List Post) (a u : Nat), (∀ p ∈ b, p.url ∈ urlsOf m) →
      (b.foldl mergeStepFold (m, a, u)).2 = (a, u + b.length) := by
  induction b with
  | nil => intro m a u _; rfl
  | cons p rest ih =>
      intro m a u hpres
      obtain ⟨e₀, hg⟩ := mapGet_isSome_of_mem (hpres p (List.mem_cons_self p rest))
      show (rest.foldl mergeStepFold (mergeStepFold (m, a, u) p)).2 = (a, u + (rest.length + 1))
      have hstep : mergeStepFold (m, a, u) p = (mapSet m (setRead p e₀.isRead), a, u + 1) := by
        unfold mergeStepFold
        rw [hg]
      have hpres' : ∀ q ∈ rest, q.url ∈ urlsOf (mapSet m (setRead p e₀.isRead)) := by
        intro q hq
        exact mem_urlsOf_mapSet.mpr (Or.inl (hpres q (List.mem_cons_of_mem p hq)))
      rw [hstep, ih _ _ _ hpres']
      refine Prod.ext rfl ?_
      show u + 1 + rest.length = u + (rest.length + 1)
      omega

/-! ### Structure of a savePosts call -/

theorem savePosts_posts_eq (env : DateEnv) (s b : List Post) :
    (savePosts env s b).posts = trimPosts (sortPosts env (mergedMap s b)) := by
  show trimPosts (sortPosts env
      ((b.filter (fun post => isValidPostUrl post.url)).foldl mergeStepFold
        (buildMap (getStoredPosts s), 0, 0)).1)
    = trimPosts (sortPosts env (mergedMap s b))
  rw [foldl_mergeStepFold_fst]
  rfl

theorem trimPosts_eq_take (l : List Post) : trimPosts l = l.take MAX_POSTS := by
  unfold trimPosts
  by_cases h : l.length > MAX_POSTS
  · rw [if_pos h]
  · rw [if_neg h]
    exact (List.take_of_length_le (by omega)).symm

theorem trimPosts_length_le (l : List Post) : (trimPosts l).length ≤ MAX_POSTS := by
  rw [trimPosts_eq_take, List.length_take]
  omega

theorem trimPosts_eq_self_of_le {l : List Post} (h : l.length ≤ MAX_POSTS) :
    trimPosts l = l := by
  unfold trimPosts
  rw [if_neg (by omega)]

theorem mem_sortPosts {env : DateEnv} {m : List Post} {q : Post} :
    q ∈ sortPosts env m ↔ q ∈ m :=
  (List.perm_insertionSort (postOrder env) m).mem_iff

theorem sorted_sortPosts (env : DateEnv) (m : List Post) :
    (sortPosts env m).Pairwise (postOrder env) :=
  List.sorted_insertionSort (postOrder env) m

theorem mem_trimPosts {l : List Post} {q : Post} (h : q ∈ trimPosts l) : q ∈ l := by
  rw [trimPosts_eq_take] at h
  exact List.Sublist.mem h (List.take_sublist MAX_POSTS l)

theorem mem_savePosts_posts {env : DateEnv} {s b : List Post} {q : Post}
    (h : q ∈ (savePosts env s b).posts) : q ∈ mergedMap s b := by
  rw [savePosts_posts_eq] at h
  exact mem_sortPosts.mp (mem_trimPosts h)

theorem lastOcc_eq_some_mem {l : List Post} {u : String} {q : Post}
    (h : lastOcc l u = some q) : q ∈ l ∧ q.url = u := by
  unfold lastOcc at h
  have hm : q ∈ l.filter (fun p => p.url = u) := List.mem_of_getLast?_eq_some h
  have := List.mem_filter.mp hm
  exact ⟨this.1, by simpa using this.2⟩

theorem mem_mapOnlyFold_src {l m : List Post} {e : Post} (he : e ∈ mapOnlyFold m l) :
    e ∈ m ∨ ∃ p ∈ l, e.url = p.url := by
  have hc := mem_mapOnlyFold_charac he
  cases hlo : lastOcc l e.url with
  | some q =>
      rw [hlo] at hc
      obtain ⟨hql, hqu⟩ := lastOcc_eq_some_mem hlo
      exact Or.inr ⟨q, hql, hqu.symm⟩
  | none =>
      rw [hlo] at hc
      exact Or.inl hc

theorem mem_mergedMap_valid {s b : List Post} {q : Post} (h : q ∈ mergedMap s b) :
    isValidPostUrl q.url = true := by
  unfold mergedMap at h
  rcases mem_mapOnlyFold_src h with hin | ⟨p, hp, hurl⟩
  · rcases mem_of_mem_foldl_mapSet hin with hin' | hin'
    · cases hin'
    · exact (List.mem_filter.mp hin').2
  · rw [hurl]
    exact (List.mem_filter.mp hp).2

theorem urlsOf_mergedMap_nodup (s b : List Post) : (urlsOf (mergedMap s b)).Nodup :=
  nodup_urlsOf_mapOnlyFold nodup_urlsOf_buildMap

theorem urlsOf_sortPosts_nodup {env : DateEnv} {m : List Post}
    (h : (urlsOf m).Nodup) : (urlsOf (sortPosts env m)).Nodup := by
  unfold urlsOf at h
  unfold urlsOf sortPosts
  exact ((List.perm_insertionSort (postOrder env) m).map (fun p => p.url)).nodup_iff.mpr h

theorem urlsOf_trimPosts_nodup {l : List Post} (h : (urlsOf l).Nodup) :
    (urlsOf (trimPosts l)).Nodup := by
  rw [trimPosts_eq_take]
  exact List.Nodup.sublist (List.Sublist.map _ (List.take_sublist MAX_POSTS l)) h

theorem urlsOf_savePosts_nodup (env : DateEnv) (s b : List Post) :
    (urlsOf (savePosts env s b).posts).Nodup := by
  rw [savePosts_posts_eq]
  exact urlsOf_trimPosts_nodup (urlsOf_sortPosts_nodup (urlsOf_mergedMap_nodup s b))

/-- The merge fold keeps a present-and-read url present and read:
every result entry for the url is still read. -/
theorem mapOnlyFold_read_pres {l : List Post} :
    ∀ {m : List Post} {u : String},
      (∃ e ∈ m, e.url = u) → (∀ e ∈ m, e.url = u → e.isRead = true) →
      (∃ e ∈ mapOnlyFold m l, e.url = u)
        ∧ (∀ e ∈ mapOnlyFold m l, e.url = u → e.isRead = true) := by
  induction l with
  | nil => intro m u hex hrd; exact ⟨hex, hrd⟩
  | cons p rest ih =>
      intro m u hex hrd
      show (∃ e ∈ mapOnlyFold (mergePostStep m p) rest, e.url = u)
          ∧ ∀ e ∈ mapOnlyFold (mergePostStep m p) rest, e.url = u → e.isRead = true
      refine ih ?_ ?_
      · obtain ⟨w, hw, hwu⟩ := hex
        cases hg : mapGet m p.url with
        | some e₀ =>
            rw [mergePostStep_get_some hg]
            have hvm : (setRead p e₀.isRead).url ∈ urlsOf m := by
              rw [setRead_url]
              obtain ⟨hm, hurl⟩ := mapGet_eq_some_mem hg
              exact mem_urlsOf.mpr ⟨e₀, hm, hurl⟩
            rw [mapSet_present hvm]
            by_cases hwp : w.url = (setRead p e₀.isRead).url
            · refine ⟨setRead p e₀.isRead, List.mem_map.mpr ⟨w, hw, by rw [if_pos hwp]⟩, ?_⟩
              rw [setRead_url]
              rw [setRead_url] at hwp
              exact hwp ▸ hwu
            · exact ⟨w, List.mem_map.mpr ⟨w, hw, by rw [if_neg hwp]⟩, hwu⟩
        | none =>
            rw [mergePostStep_get_none hg]
            exact ⟨w, List.mem_append.mpr (Or.inl hw), hwu⟩
      · intro e he heu
        cases hg : mapGet m p.url with
        | some e₀ =>
            rw [mergePostStep_get_some hg] at he
            have hvm : (setRead p e₀.isRead).url ∈ urlsOf m := by
              rw [setRead_url]
              obtain ⟨hm, hurl⟩ := mapGet_eq_some_mem hg
              exact mem_urlsOf.mpr ⟨e₀, hm, hurl⟩
            rcases mem_mapSet_present_cases hvm he with rfl | ⟨hin, _⟩
            · show e₀.isRead = true
              obtain ⟨hm, hurl⟩ := mapGet_eq_some_mem hg
              refine hrd e₀ hm ?_
              rw [hurl]
              rw [setRead_url] at heu
              exact heu
            · exact hrd e hin heu
        | none =>
            rw [mergePostStep_get_none hg] at he
            rcases List.mem_append.mp he with hin | hin
            · exact hrd e hin heu
            · exfalso
              obtain ⟨w, hw, hwu⟩ := hex
              rw [List.mem_singleton.mp hin] at heu
              exact (mapGet_eq_none_iff.mp hg) (mem_urlsOf.mpr ⟨w, hw, heu ▸ hwu⟩)

/-! ### Orchestrator invariants -/

theorem settleCount_append_one {L : List (Nat × Outcome)} {j : Nat} {o : Outcome} {i : Nat} :
    (L ++ [(j, o)]).countP (fun e => e.1 = i)
      = L.countP (fun e => e.1 = i) + (if j = i then 1 else 0) := by
  rw [List.countP_append]
  by_cases h : j = i
  · simp [h]
  · simp [h]

theorem settleCount_zero_of_unused {s : OrchState} {i : Nat}
    (hlog : ∀ e ∈ s.settleLog, e.1 ∈ s.used) (hi : i ∉ s.used) : settleCount s i = 0 := by
  unfold settleCount
  rw [List.countP_eq_zero]
  intro e he
  simp only [decide_eq_true_eq]
  intro hei
  exact hi (hei ▸ hlog e he)

/-- State invariant ensuring at most one settlement per invocation:
settlement counts are bounded, a pending refresh's owner has not settled
yet, and all recorded invocations were introduced by some call. -/
def OrchInv (s : OrchState) : Prop :=
  (∀ i, settleCount s i ≤ 1)
  ∧ (∀ j t, s.owner = some j → s.pendingRefreshTabId = some t → settleCount s j = 0)
  ∧ (∀ e ∈ s.settleLog, e.1 ∈ s.used)
  ∧ (∀ j, s.owner = some j → j ∈ s.used)

theorem orchInv_init : OrchInv orchInit := by
  refine ⟨?_, ?_, ?_, ?_⟩
  · intro i
    simp [settleCount, orchInit]
  · intro j t h
    simp [orchInit] at h
  · intro e he
    simp [orchInit] at he
  · intro j h
    simp [orchInit] at h

theorem orchStep_inv {s : OrchState} {e : OrchEv} (h : OrchInv s)
    (hfresh : ∀ i r, e = OrchEv.callRefresh i r → i ∉ s.used) :
    OrchInv (orchStep s e) := by
  obtain ⟨hle, hpo, hlu, hou⟩ := h
  have hcount1 : ∀ (j : Nat) (o : Outcome), settleCount s j = 0 →
      ∀ i, (s.settleLog ++ [(j, o)]).countP (fun e => e.1 = i) ≤ 1 := by
    intro j o hjz i
    rw [settleCount_append_one]
    by_cases hji : j = i
    · rw [if_pos hji, ← hji]
      unfold settleCount at hjz
      omega
    · rw [if_neg hji]
      have := hle i
      unfold settleCount at this
      omega
  cases e with
  | callRefresh inv res =>
      have hinv : inv ∉ s.used := hfresh inv res rfl
      have hzero : settleCount s inv = 0 := settleCount_zero_of_unused hlu hinv
      cases res with
      | none =>
          refine ⟨hcount1 inv Outcome.rejectedP hzero, ?_, ?_, ?_⟩
          · intro j t _ hpend
            cases hpend
          · intro e he
            rcases List.mem_append.mp he with h1 | h1
            · exact List.mem_append.mpr (Or.inl (hlu e h1))
            · rw [List.mem_singleton.mp h1]
              exact List.mem_append.mpr (Or.inr (List.mem_singleton.mpr rfl))
          · intro j hj
            cases hj
            exact List.mem_append.mpr (Or.inr (List.mem_singleton.mpr rfl))
      | some t =>
          refine ⟨fun i => hle i, ?_, ?_, ?_⟩
          · intro j u hj _
            cases hj
            exact hzero
          · intro e he
            exact List.mem_append.mpr (Or.inl (hlu e he))
          · intro j hj
            cases hj
            exact List.mem_append.mpr (Or.inr (List.mem_singleton.mpr rfl))
  | tabLoaded tab =>
      exact ⟨hle, hpo, hlu, hou⟩
  | timerFire inv t =>
      show OrchInv (if (inv, t) ∈ s.timers then _ else s)
      by_cases hmem : (inv, t) ∈ s.timers
      · rw [if_pos hmem]
        by_cases hpend : s.pendingRefreshTabId = some t
        · rw [if_pos hpend]
          cases hown : s.owner with
          | some j =>
              have hjz : settleCount s j = 0 := hpo j t hown hpend
              refine ⟨hcount1 j Outcome.rejectedP hjz, ?_, ?_, ?_⟩
              · intro j' t' hj'
                cases hj'
              · intro e he
                rcases List.mem_append.mp he with h1 | h1
                · exact hlu e h1
                · rw [List.mem_singleton.mp h1]
                  exact hou j hown
              · intro j' hj'
                cases hj'
          | none =>
              refine ⟨fun i => hle i, ?_, fun e he => hlu e he, ?_⟩
              · intro j' t' hj'
                cases hj'
              · intro j' hj'
                cases hj'
        · rw [if_neg hpend]
          exact ⟨fun i => hle i, fun j' t' hj' hp' => hpo j' t' hj' hp',
            fun e he => hlu e he, fun j' hj' => hou j' hj'⟩
      · rw [if_neg hmem]
        exact ⟨hle, hpo, hlu, hou⟩
  | postsExtracted tab ok =>
      show OrchInv (if tab ≠ 0 ∧ s.pendingRefreshTabId = some tab then _ else s)
      by_cases hcond : tab ≠ 0 ∧ s.pendingRefreshTabId = some tab
      · rw [if_pos hcond]
        cases hown : s.owner with
        | some j =>
            have hjz : settleCount s j = 0 := hpo j tab hown hcond.2
            refine ⟨hcount1 j (if ok then Outcome.resolvedP else Outcome.rejectedP) hjz,
              ?_, ?_, ?_⟩
            · intro j' t' hj'
              cases hj'
            · intro e he
              rcases List.mem_append.mp he with h1 | h1
              · exact hlu e h1
              · rw [List.mem_singleton.mp h1]
                exact hou j hown
            · intro j' hj'
              cases hj'
        | none =>
            refine ⟨fun i => hle i, ?_, fun e he => hlu e he, ?_⟩
            · intro j' t' hj'
              cases hj'
            · intro j' hj'
              cases hj'
      · rw [if_neg hcond]
        exact ⟨hle, hpo, hlu, hou⟩

theorem orchStep_used (s : OrchState) (e : OrchEv) :
    (orchStep s e).used = s.used ++ (match e with
      | OrchEv.callRefresh i _ => [i]
      | _ => []) := by
  cases e with
  | callRefresh inv res =>
      cases res with
      | none => rfl
      | some t => rfl
  | tabLoaded tab => simp [orchStep]
  | timerFire inv t =>
      show (if (inv, t) ∈ s.timers then _ else s).used = s.used ++ []
      by_cases hmem : (inv, t) ∈ s.timers
      · rw [if_pos hmem]
        by_cases hpend : s.pendingRefreshTabId = some t
        · rw [if_pos hpend]
          cases s.owner with
          | some j => simp
          | none => simp
        · rw [if_neg hpend]
          simp
      · rw [if_neg hmem]
        simp
  | postsExtracted tab ok =>
      show (if tab ≠ 0 ∧ s.pendingRefreshTabId = some tab then _ else s).used = s.used ++ []
      by_cases hcond : tab ≠ 0 ∧ s.pendingRefreshTabId = some tab
      · rw [if_pos hcond]
        cases s.owner with
        | some j => simp
        | none => simp
      · rw [if_neg hcond]
        simp

theorem orchRun_inv (tr : List OrchEv) :
    ∀ s : OrchState, OrchInv s →
      (∀ i ∈ (callEvsOf tr).map Prod.fst, i ∉ s.used) →
      ((callEvsOf tr).map Prod.fst).Pairwise (fun a b => a ≠ b) →
      OrchInv (orchRun s tr) := by
  induction tr with
  | nil => intro s h _ _; exact h
  | cons e rest ih =>
      intro s h hdisj hpw
      show OrchInv (orchRun (orchStep s e) rest)
      cases e with
      | callRefresh inv res =>
          have hcalls : callEvsOf (OrchEv.callRefresh inv res :: rest)
              = (inv, res) :: callEvsOf rest := by
            simp [callEvsOf]
          have hinv : inv ∉ s.used := by
            refine hdisj inv ?_
            rw [hcalls]
            simp
          have hstep : OrchInv (orchStep s (OrchEv.callRefresh inv res)) :=
            orchStep_inv h (fun i r he => by
              cases he
              exact hinv)
          have hused : (orchStep s (OrchEv.callRefresh inv res)).used = s.used ++ [inv] :=
            orchStep_used s _
          have hpw' := hpw
          rw [hcalls] at hpw'
          simp only [List.map_cons] at hpw'
          refine ih _ hstep ?_ ?_
          · intro i hi
            rw [hused]
            intro hmem
            rcases List.mem_append.mp hmem with h1 | h1
            · refine hdisj i ?_ h1
              rw [hcalls]
              simp only [List.map_cons]
              exact List.mem_cons_of_mem _ hi
            · exact ((List.pairwise_cons.mp hpw').1 i hi) (List.mem_singleton.mp h1).symm
          · exact (List.pairwise_cons.mp hpw').2
      | tabLoaded tab =>
          have hstep : OrchInv (orchStep s (OrchEv.tabLoaded tab)) :=
            orchStep_inv h (fun i r he => by cases he)
          have hused : (orchStep s (OrchEv.tabLoaded tab)).used = s.used ++ [] :=
            orchStep_used s _
          refine ih _ hstep ?_ ?_
          · intro i hi
            rw [hused, List.append_nil]
            exact hdisj i (by simpa [callEvsOf] using hi)
          · simpa [callEvsOf] using hpw
      | timerFire inv t =>
          have hstep : OrchInv (orchStep s (OrchEv.timerFire inv t)) :=
            orchStep_inv h (fun i r he => by cases he)
          have hused : (orchStep s (OrchEv.timerFire inv t)).used = s.used ++ [] :=
            orchStep_used s _
          refine ih _ hstep ?_ ?_
          · intro i hi
            rw [hused, List.append_nil]
            exact hdisj i (by simpa [callEvsOf] using hi)
          · simpa [callEvsOf] using hpw
      | postsExtracted tab ok =>
          have hstep : OrchInv (orchStep s (OrchEv.postsExtracted tab ok)) :=
            orchStep_inv h (fun i r he => by cases he)
          have hused : (orchStep s (OrchEv.postsExtracted tab ok)).used = s.used ++ [] :=
            orchStep_used s _
          refine ih _ hstep ?_ ?_
          · intro i hi
            rw [hused, List.append_nil]
            exact hdisj i (by simpa [callEvsOf] using hi)
          · simpa [callEvsOf] using hpw

/-- With no refresh call, no pending tab, and no scheduled timer, every
event is a no-op for the orchestrator. -/
theorem orchRun_nocall_noop (tr : List OrchEv) :
    ∀ s : OrchState, callEvsOf tr = [] → s.pendingRefreshTabId = none → s.timers = [] →
      orchRun s tr = s := by
  induction tr with
  | nil => intro s _ _ _; rfl
  | cons e rest ih =>
      intro s hnc hpend htim
      have hstep : orchStep s e = s := by
        cases e with
        | callRefresh inv res => simp [callEvsOf] at hnc
        | tabLoaded tab => rfl
        | timerFire inv t =>
            show (if (inv, t) ∈ s.timers then _ else s) = s
            rw [htim]
            simp
        | postsExtracted tab ok =>
            show (if tab ≠ 0 ∧ s.pendingRefreshTabId = some tab then _ else s) = s
            rw [hpend]
            simp
      show orchRun (orchStep s e) rest = s
      rw [hstep]
      refine ih s ?_ hpend htim
      cases e with
      | callRefresh inv res => simp [callEvsOf] at hnc
      | tabLoaded tab => simpa [callEvsOf] using hnc
      | timerFire inv t => simpa [callEvsOf] using hnc
      | postsExtracted tab ok => simpa [callEvsOf] using hnc

/-- Invariant holding after a single refresh call that created tab `t`:
either the invocation has settled exactly once and nothing is pending, or
it is still unsettled with its pending tab, its installed promise, and
its scheduled timer intact. -/
def afterCallInv (i t : Nat) (s : OrchState) : Prop :=
  (∀ x ∈ s.timers, x = (i, t))
  ∧ ((settleCount s i = 1 ∧ s.pendingRefreshTabId = none)
     ∨ (settleCount s i = 0 ∧ s.pendingRefreshTabId = some t
        ∧ s.owner = some i ∧ (i, t) ∈ s.timers))

theorem afterCallInv_step {i t : Nat} {s : OrchState} {e : OrchEv}
    (hnc : ∀ j r, e ≠ OrchEv.callRefresh j r) (h : afterCallInv i t s) :
    afterCallInv i t (orchStep s e) := by
  obtain ⟨hsub, hdisj⟩ := h
  cases e with
  | callRefresh j r => exact absurd rfl (hnc j r)
  | tabLoaded tab => exact ⟨hsub, hdisj⟩
  | timerFire inv u =>
      show afterCallInv i t (if (inv, u) ∈ s.timers then _ else s)
      by_cases hmem : (inv, u) ∈ s.timers
      · rw [if_pos hmem]
        have hiu : (inv, u) = (i, t) := hsub _ hmem
        have hinv : inv = i := (Prod.mk.injEq _ _ _ _).mp hiu |>.1
        have hu : u = t := (Prod.mk.injEq _ _ _ _).mp hiu |>.2
        rcases hdisj with ⟨hc1, hp⟩ | ⟨hc0, hp, how, htm⟩
        · rw [if_neg (by rw [hp]; simp)]
          refine ⟨?_, Or.inl ⟨hc1, hp⟩⟩
          intro x hx
          exact hsub x (List.mem_of_mem_erase hx)
        · rw [if_pos (by rw [hp, hu])]
          rw [how]
          refine ⟨?_, Or.inl ⟨?_, rfl⟩⟩
          · intro x hx
            exact hsub x (List.mem_of_mem_erase hx)
          · show (s.settleLog ++ [(i, Outcome.rejectedP)]).countP (fun e => e.1 = i) = 1
            rw [settleCount_append_one]
            unfold settleCount at hc0
            rw [if_pos rfl]
            omega
      · rw [if_neg hmem]
        exact ⟨hsub, hdisj⟩
  | postsExtracted tab ok =>
      show afterCallInv i t (if tab ≠ 0 ∧ s.pendingRefreshTabId = some tab then _ else s)
      by_cases hcond : tab ≠ 0 ∧ s.pendingRefreshTabId = some tab
      · rw [if_pos hcond]
        rcases hdisj with ⟨hc1, hp⟩ | ⟨hc0, hp, how, htm⟩
        · rw [hp] at hcond
          cases hcond.2
        · rw [how]
          refine ⟨hsub, Or.inl ⟨?_, rfl⟩⟩
          show (s.settleLog
              ++ [(i, if ok then Outcome.resolvedP else Outcome.rejectedP)]).countP
              (fun e => e.1 = i) = 1
          rw [settleCount_append_one]
          unfold settleCount at hc0
          rw [if_pos rfl]
          omega
      · rw [if_neg hcond]
        exact ⟨hsub, hdisj⟩

theorem afterCallInv_run (tr : List OrchEv) :
    ∀ {i t : Nat} {s : OrchState}, callEvsOf tr = [] → afterCallInv i t s →
      afterCallInv i t (orchRun s tr) := by
  induction tr with
  | nil => intro i t s _ h; exact h
  | cons e rest ih =>
      intro i t s hnc h
      show afterCallInv i t (orchRun (orchStep s e) rest)
      have hnce : ∀ j r, e ≠ OrchEv.callRefresh j r := by
        intro j r he
        rw [he] at hnc
        simp [callEvsOf] at hnc
      refine ih ?_ (afterCallInv_step hnce h)
      cases e with
      | callRefresh inv res => exact absurd rfl (hnce inv res)
      | tabLoaded tab => simpa [callEvsOf] using hnc
      | timerFire inv u => simpa [callEvsOf] using hnc
      | postsExtracted tab ok => simpa [callEvsOf] using hnc

/-- A trace with exactly one refresh call splits around that call. -/
theorem single_call_split (tr : List OrchEv) :
    ∀ {i : Nat} {res : Option Nat}, callEvsOf tr = [(i, res)] →
      ∃ pre post, tr = pre ++ OrchEv.callRefresh i res :: post
        ∧ callEvsOf pre = [] ∧ callEvsOf post = [] := by
  induction tr with
  | nil => intro i res h; simp [callEvsOf] at h
  | cons e rest ih =>
      intro i res h
      cases e with
      | callRefresh j r =>
          have h' : (j, r) :: callEvsOf rest = [(i, res)] := by
            simpa [callEvsOf] using h
          have hji : (j, r) = (i, res) := (List.cons.injEq _ _ _ _).mp h' |>.1
          have hrest : callEvsOf rest = [] := (List.cons.injEq _ _ _ _).mp h' |>.2
          cases hji
          exact ⟨[], rest, rfl, rfl, hrest⟩
      | tabLoaded tab =>
          obtain ⟨pre, post, heq, hpre, hpost⟩ := ih (by simpa [callEvsOf] using h)
          exact ⟨OrchEv.tabLoaded tab :: pre, post, by rw [heq]; rfl,
            by simpa [callEvsOf] using hpre, hpost⟩
      | timerFire inv u =>
          obtain ⟨pre, post, heq, hpre, hpost⟩ := ih (by simpa [callEvsOf] using h)
          exact ⟨OrchEv.timerFire inv u :: pre, post, by rw [heq]; rfl,
            by simpa [callEvsOf] using hpre, hpost⟩
      | postsExtracted tab ok =>
          obtain ⟨pre, post, heq, hpre, hpost⟩ := ih (by simpa [callEvsOf] using h)
          exact ⟨OrchEv.postsExtracted tab ok :: pre, post, by rw [heq]; rfl,
            by simpa [callEvsOf] using hpre, hpost⟩

/-! ### Concrete test fixtures -/

/-- Digit-run decoder for the concrete test date environment. -/
def decodeDigits : List Char → Nat → Option Nat
  | [], acc => some acc
  | c :: cs, acc => if c.isDigit then decodeDigits cs (acc * 10 + (c.toNat - 48)) else none

/-- Decode an optionally signed decimal integer. -/
def decodeIntStr (s : String) : Option Int :=
  match s.data with
  | [] => none
  | '-' :: cs => (decodeDigits cs 0).map (fun n => -(n : Int))
  | cs => (decodeDigits cs 0).map (fun n => (n : Int))

/-- Concrete date environment for witnesses and counterexamples: a date
string parses as a decimal number of milliseconds. -/
def envInt : DateEnv := fun s => decodeIntStr s

/-- Concrete post with the given url, extraction date string, and read
flag. -/
def mkPost (u d : String) (r : Bool) : Post :=
  { id := "", title := "t", subtitle := "", publication := "pub", publicationLogo := none,
    author := "", coverImage := none, url := u, publishedAt := none, isRead := r,
    extractedAt := d }

/-- Valid article url whose identity is coded in its length:
`/p/` followed by `i` letters `a`. -/
def aUrl (i : Nat) : String := String.mk ('/' :: 'p' :: '/' :: List.replicate i 'a')

/-- One more valid article url, distinct from every `aUrl i`. -/
def bUrl : String := String.mk ['/', 'p', '/', 'b']

/-- Date string whose parse is coded in its length. -/
def xDate (n : Nat) : String := String.mk (List.replicate n 'x')

/-- Date environment for the size-cap counterexamples: a nonempty date
string denotes the instant given by its length in milliseconds (the
orderings used are realizable with genuine timestamp strings); the empty
string is invalid. -/
def envLen : DateEnv := fun s => if s.data = [] then none else some (s.data.length : Int)

/-- The i-th stored post: distinct valid url, effective date `i + 2`,
and the oldest post (index 0) marked read. -/
def postA (i : Nat) : Post := mkPost (aUrl i) (xDate (i + 2)) (i == 0)

/-- A full persisted collection of `MAX_POSTS` posts with distinct valid
urls and strictly increasing effective dates 2..301; the oldest one
(url `aUrl 0`) is marked read. -/
def bigState : List Post := (List.range 300).map postA

/-- A fresh incoming post newer than everything in `bigState`. -/
def qPost : Post := mkPost bUrl (xDate 400) false

/-- A fresh incoming post older than everything in `bigState`. -/
def oldPost : Post := mkPost bUrl (xDate 1) false

/-- A later re-scrape of the url `aUrl 0`, unread and newer than
everything else. -/
def rescrape : Post := mkPost (aUrl 0) (xDate 500) false

def wPost : Post := mkPost "w/p/" "5" true

def wIncoming : Post := mkPost "w/p/" "6" false

/-! ### C2 -/

theorem filter_eq_self_of_length {α : Type} {p : α → Bool} {l : List α}
    (h : (l.filter p).length = l.length) : l.filter p = l := by
  induction l with
  | nil => rfl
  | cons a t ih =>
      by_cases hp : p a
      · rw [List.filter_cons_of_pos hp] at h ⊢
        simp only [List.length_cons] at h
        rw [ih (by omega)]
      · rw [List.filter_cons_of_neg hp] at h
        have := List.length_filter_le p t
        simp only [List.length_cons] at h
        omega

/-- C2: no post with an invalid article URL is ever present in persisted
state after any operation.  Every post in a merge result and in a
mark-as-read result has a valid URL; the age cleanup preserves
all-valid states; the Extractor rejects any element whose href fails the
article-URL predicate; and the Extractor's predicate is the same
function as the Merge Engine's defensive filter. -/
theorem c2_invalid_urls_never_persisted :
    (∀ (env : DateEnv) (s b : List Post), ∀ q ∈ (savePosts env s b).posts,
        isValidPostUrl q.url = true)
    ∧ (∀ (s : List Post) (u : String), ∀ q ∈ markPostAsRead s u,
        isValidPostUrl q.url = true)
    ∧ (∀ (env : DateEnv) (now : Int) (days : Int) (s : List Post),
        (∀ q ∈ s, isValidPostUrl q.url = true) →
        ∀ q ∈ (cleanupOldPosts env now days s).1, isValidPostUrl q.url = true)
    ∧ (∀ (now : Int) (el : PostElement), isValidArticleUrl el.href = false →
        extractPostFromElement now el = none)
    ∧ (∀ u : String, isValidArticleUrl u = isValidPostUrl u) := by
  refine ⟨?_, ?_, ?_, ?_, fun u => rfl⟩
  · intro env s b q hq
    exact mem_mergedMap_valid (mem_savePosts_posts hq)
  · intro s u q hq
    obtain ⟨q₀, hq₀, hqe⟩ := List.mem_map.mp hq
    have hv : isValidPostUrl q₀.url = true := (List.mem_filter.mp hq₀).2
    by_cases hqu : q₀.url = u
    · rw [if_pos hqu] at hqe
      rw [← hqe]
      exact hv
    · rw [if_neg hqu] at hqe
      rw [← hqe]
      exact hv
  · intro env now days s hall q hq
    have hsplit : (cleanupOldPosts env now days s).1 = s
        ∨ (cleanupOldPosts env now days s).1
          = (getStoredPosts s).filter (fun p => postDateOk env (now - days * 86400000) p) := by
      unfold cleanupOldPosts
      by_cases hR : (getStoredPosts s).length
          - ((getStoredPosts s).filter (fun p => postDateOk env (now - days * 86400000) p)).length
          > 0
      · rw [if_pos hR]
        exact Or.inr rfl
      · rw [if_neg hR]
        exact Or.inl rfl
    rcases hsplit with heq | heq
    · rw [heq] at hq
      exact hall q hq
    · rw [heq] at hq
      exact (List.mem_filter.mp (List.mem_filter.mp hq).1).2
  · intro now el h
    simp [extractPostFromElement, h]

/-- C2 witness: the theorem applied to a concrete merge. -/
theorem c2_witness : isValidPostUrl (setRead wIncoming true).url = true :=
  c2_invalid_urls_never_persisted.1 envInt [wPost] [wIncoming]
    (setRead wIncoming true) (by decide)

/-! ### C10 -/

/-- C10: the age-based eviction pass retains exactly the valid-URL posts
whose effective date string parses to an instant at or after
`now` minus the 30-day retention window (so a post whose effective date
string fails to parse is evicted no matter how recent `extractedAt` is),
and the storage write is skipped entirely — the stored array is returned
unchanged — when no post is removed. -/
theorem c10_cleanup_retention (env : DateEnv) (now : Int) (s : List Post) :
    ((cleanupOldPosts env now MAX_POST_AGE_DAYS s).1.filter (fun p => isValidPostUrl p.url)
        = (getStoredPosts s).filter
            (fun p => postDateOk env (now - MAX_POST_AGE_DAYS * 86400000) p))
    ∧ ((cleanupOldPosts env now MAX_POST_AGE_DAYS s).2 = 0
        → (cleanupOldPosts env now MAX_POST_AGE_DAYS s).1 = s)
    ∧ (cleanupOldPosts env now MAX_POST_AGE_DAYS s).2
        = (getStoredPosts s).length
          - ((getStoredPosts s).filter
              (fun p => postDateOk env (now - MAX_POST_AGE_DAYS * 86400000) p)).length := by
  have hsub : ∀ q ∈ (getStoredPosts s).filter
      (fun p => postDateOk env (now - MAX_POST_AGE_DAYS * 86400000) p),
      isValidPostUrl q.url = true := by
    intro q hq
    exact (List.mem_filter.mp (List.mem_filter.mp hq).1).2
  by_cases hR : (getStoredPosts s).length
      - ((getStoredPosts s).filter
          (fun p => postDateOk env (now - MAX_POST_AGE_DAYS * 86400000) p)).length > 0
  · have heq : cleanupOldPosts env now MAX_POST_AGE_DAYS s
        = ((getStoredPosts s).filter
            (fun p => postDateOk env (now - MAX_POST_AGE_DAYS * 86400000) p),
          (getStoredPosts s).length
            - ((getStoredPosts s).filter
                (fun p => postDateOk env (now - MAX_POST_AGE_DAYS * 86400000) p)).length) := by
      unfold cleanupOldPosts
      rw [if_pos hR]
    rw [heq]
    refine ⟨List.filter_eq_self.mpr hsub, ?_, rfl⟩
    intro h0
    exact absurd h0 (by omega)
  · have heq : cleanupOldPosts env now MAX_POST_AGE_DAYS s
        = (s, (getStoredPosts s).length
            - ((getStoredPosts s).filter
                (fun p => postDateOk env (now - MAX_POST_AGE_DAYS * 86400000) p)).length) := by
      unfold cleanupOldPosts
      rw [if_neg hR]
    rw [heq]
    have hlen : ((getStoredPosts s).filter
        (fun p => postDateOk env (now - MAX_POST_AGE_DAYS * 86400000) p)).length
        = (getStoredPosts s).length := by
      have := List.length_filter_le
        (fun p => postDateOk env (now - MAX_POST_AGE_DAYS * 86400000) p) (getStoredPosts s)
      omega
    have hfe : (getStoredPosts s).filter
        (fun p => postDateOk env (now - MAX_POST_AGE_DAYS * 86400000) p) = getStoredPosts s :=
      filter_eq_self_of_length hlen
    refine ⟨?_, fun _ => rfl, rfl⟩
    show List.filter (fun p => isValidPostUrl p.url) s
        = List.filter (fun p => postDateOk env (now - MAX_POST_AGE_DAYS * 86400000) p)
            (getStoredPosts s)
    rw [hfe]
    rfl

/-- C10 witness: a collection with nothing stale is returned unchanged. -/
theorem c10_witness :
    (cleanupOldPosts envInt 100 MAX_POST_AGE_DAYS [wPost]).2 = 0
      → (cleanupOldPosts envInt 100 MAX_POST_AGE_DAYS [wPost]).1 = [wPost] :=
  (c10_cleanup_retention envInt 100 [wPost]).2.1

/-! ### C1 -/

/-- C1 (amended): within a single merge, the read flag is preserved for a
url that stays in the collection: if every stored record for a valid url
is read and the url is present, every record for that url in the merge
result is still read.  Across a sequence of merges monotonicity can
fail, because the size cap can evict the post and a later merge re-adds
it fresh with the incoming flag (see the counterexample). -/
theorem c1_amended_isRead_preserved (env : DateEnv) (s b : List Post) (u : String)
    (hpres : ∃ p ∈ s, p.url = u ∧ isValidPostUrl p.url = true)
    (hread : ∀ p ∈ s, p.url = u → p.isRead = true) :
    ∀ q ∈ (savePosts env s b).posts, q.url = u → q.isRead = true := by
  intro q hq hqu
  have hq' : q ∈ mergedMap s b := mem_savePosts_posts hq
  unfold mergedMap at hq'
  have hexB : ∃ e ∈ buildMap (getStoredPosts s), e.url = u := by
    obtain ⟨p, hp, hpu, hpv⟩ := hpres
    have hpf : p ∈ getStoredPosts s := List.mem_filter.mpr ⟨hp, hpv⟩
    have := urlsOf_buildMap_sup hpf
    rw [hpu] at this
    obtain ⟨e, he, heu⟩ := mem_urlsOf.mp this
    exact ⟨e, he, heu⟩
  have hrdB : ∀ e ∈ buildMap (getStoredPosts s), e.url = u → e.isRead = true := by
    intro e he heu
    rcases mem_of_mem_foldl_mapSet he with h0 | h0
    · cases h0
    · exact hread e (List.mem_filter.mp h0).1 heu
  exact (mapOnlyFold_read_pres hexB hrdB).2 q hq' hqu

/-- C1 witness: merging an unread rescrape of a read post keeps it read. -/
theorem c1_witness : (setRead wIncoming true).isRead = true :=
  c1_amended_isRead_preserved envInt [wPost] [wIncoming] "w/p/"
    (by decide) (by decide) (setRead wIncoming true) (by decide) (by decide)


set_option maxRecDepth 100000

set_option maxHeartbeats 1000000

/-! ### Symbolic facts about the string scanners -/

theorem listHasPre_subset {pat txt : List Char} (h : listHasPre pat txt = true) :
    ∀ c ∈ pat, c ∈ txt := by
  induction pat generalizing txt with
  | nil => intro c hc; cases hc
  | cons p ps ih =>
      cases txt with
      | nil => cases h
      | cons d ds =>
          have h' : (p = d) ∧ listHasPre ps ds = true := by
            simpa [listHasPre, Bool.and_eq_true] using h
          intro c hc
          rcases List.mem_cons.mp hc with rfl | hc
          · exact h'.1 ▸ List.mem_cons_self d ds
          · exact List.mem_cons_of_mem d (ih h'.2 c hc)

theorem listHasSub_subset {pat txt : List Char} (h : listHasSub pat txt = true) :
    ∀ c ∈ pat, c ∈ txt := by
  induction txt with
  | nil =>
      intro c hc
      cases pat with
      | nil => cases hc
      | cons p ps => cases h
  | cons d ds ih =>
      have h' : listHasPre pat (d :: ds) = true ∨ listHasSub pat ds = true := by
        simpa [listHasSub, Bool.or_eq_true] using h
      intro c hc
      rcases h' with h1 | h1
      · exact listHasPre_subset h1 c hc
      · exact List.mem_cons_of_mem d (ih h1 c hc)

theorem listHasSub_of_pre {pat txt : List Char} (h : listHasPre pat txt = true) :
    listHasSub pat txt = true := by
  cases txt with
  | nil =>
      cases pat with
      | nil => rfl
      | cons p ps => cases h
  | cons d ds => simp [listHasSub, h]

/-- A pattern containing a character outside the url's character set does
not occur in the url. -/
theorem not_includes_of_badchar {url pat : String} {c : Char} (hc : c ∈ pat.data)
    (hcs : ∀ d ∈ url.data, d = '/' ∨ d = 'p' ∨ d = 'a' ∨ d = 'b')
    (hbad : ¬(c = '/' ∨ c = 'p' ∨ c = 'a' ∨ c = 'b')) : jsIncludes url pat = false := by
  cases h : jsIncludes url pat with
  | false => rfl
  | true => exact absurd (hcs c (listHasSub_subset h c hc)) hbad

theorem not_endsWith_of_badchar {url pat : String} {c : Char} (hc : c ∈ pat.data)
    (hcs : ∀ d ∈ url.data, d = '/' ∨ d = 'p' ∨ d = 'a' ∨ d = 'b')
    (hbad : ¬(c = '/' ∨ c = 'p' ∨ c = 'a' ∨ c = 'b')) : jsEndsWith url pat = false := by
  cases h : jsEndsWith url pat with
  | false => rfl
  | true =>
      have hmem : c ∈ url.data.reverse :=
        listHasPre_subset h c (List.mem_reverse.mpr hc)
      exact absurd (hcs c (List.mem_reverse.mp hmem)) hbad

theorem str_eq_empty_iff {l : List Char} : (String.mk l = "") ↔ l = [] := by
  constructor
  · intro h
    have : (String.mk l).data = ("" : String).data := by rw [h]
    simpa using this
  · intro h
    rw [h]

/-- Any nonempty url over the characters `/`, `p`, `a`, `b` that starts
with `/p/` is a valid post url: it contains the post marker and cannot
contain any of the excluded patterns, each of which uses a character
outside that set. -/
theorem valid_of_charset {url : String} (hne : url.data ≠ [])
    (hpre : listHasPre ['/', 'p', '/'] url.data = true)
    (hcs : ∀ d ∈ url.data, d = '/' ∨ d = 'p' ∨ d = 'a' ∨ d = 'b') :
    isValidPostUrl url = true := by
  have h0 : ¬(url = "") := by
    intro h
    rw [h] at hne
    exact hne rfl
  have hpp : jsIncludes url "/p/" = true := listHasSub_of_pre hpre
  have hA : jsIncludes url "/comments" = false :=
    not_includes_of_badchar (c := 'c') (by decide) hcs (by decide)
  have hB : jsIncludes url "/comment/" = false :=
    not_includes_of_badchar (c := 'c') (by decide) hcs (by decide)
  have hC : jsIncludes url "/comment?" = false :=
    not_includes_of_badchar (c := 'c') (by decide) hcs (by decide)
  have hD : jsEndsWith url "/comment" = false :=
    not_endsWith_of_badchar (c := 'c') (by decide) hcs (by decide)
  have hE : jsIncludes url "/subscribe" = false :=
    not_includes_of_badchar (c := 's') (by decide) hcs (by decide)
  have hF : jsIncludes url "/about" = false :=
    not_includes_of_badchar (c := 'o') (by decide) hcs (by decide)
  have hG : jsIncludes url "/archive" = false :=
    not_includes_of_badchar (c := 'r') (by decide) hcs (by decide)
  have hH : jsIncludes url "?action=" = false :=
    not_includes_of_badchar (c := '?') (by decide) hcs (by decide)
  have hI : jsIncludes url "&action=" = false :=
    not_includes_of_badchar (c := '&') (by decide) hcs (by decide)
  have hJ : jsIncludes url "/discussion" = false :=
    not_includes_of_badchar (c := 'd') (by decide) hcs (by decide)
  simp [isValidPostUrl, h0, hpp, hA, hB, hC, hD, hE, hF, hG, hH, hI, hJ]

/-! ### Symbolic behavior of a merge of entirely fresh posts -/

theorem mapOnlyFold_fresh {l : List Post} :
    ∀ {m : List Post}, (urlsOf (m ++ l)).Nodup → mapOnlyFold m l = m ++ l := by
  induction l with
  | nil => intro m _; simp [mapOnlyFold]
  | cons p rest ih =>
      intro m h
      have happ : ((urlsOf m) ++ urlsOf (p :: rest)).Nodup := by
        have heq : urlsOf (m ++ p :: rest) = urlsOf m ++ urlsOf (p :: rest) :=
          List.map_append _ _ _
        rwa [heq] at h
      have hpm : p.url ∉ urlsOf m := by
        intro hp
        exact (List.disjoint_of_nodup_append happ) hp (by simp [urlsOf])
      have hget : mapGet m p.url = none := mapGet_eq_none_iff.mpr hpm
      have hstep : mergePostStep m p = m ++ [p] := mergePostStep_get_none hget
      have h' : (urlsOf ((m ++ [p]) ++ rest)).Nodup := by
        rw [List.append_assoc, List.singleton_append]
        exact h
      calc mapOnlyFold m (p :: rest) = mapOnlyFold (m ++ [p]) rest := by
            show mapOnlyFold (mergePostStep m p) rest = _
            rw [hstep]
        _ = (m ++ [p]) ++ rest := ih h'
        _ = m ++ p :: rest := by simp [List.append_assoc]

/-- When stored and incoming posts are all valid and have pairwise
distinct urls, the merged map is simply the concatenation. -/
theorem mergedMap_fresh {s b : List Post}
    (hvs : ∀ p ∈ s, isValidPostUrl p.url = true)
    (hvb : ∀ p ∈ b, isValidPostUrl p.url = true)
    (hnd : (urlsOf (s ++ b)).Nodup) :
    mergedMap s b = s ++ b := by
  have hfs : getStoredPosts s = s := List.filter_eq_self.mpr hvs
  have hfb : b.filter (fun post => isValidPostUrl post.url) = b :=
    List.filter_eq_self.mpr hvb
  have hnds : (urlsOf s).Nodup := by
    have heq : urlsOf (s ++ b) = urlsOf s ++ urlsOf b := List.map_append _ _ _
    rw [heq, List.nodup_append] at hnd
    exact hnd.1
  unfold mergedMap
  rw [hfs, hfb, buildMap_eq_self hnds]
  exact mapOnlyFold_fresh hnd

/-! ### Which posts survive the size-cap trim -/

theorem nodup_of_urlsOf_nodup {l : List Post} (h : (urlsOf l).Nodup) : l.Nodup :=
  List.Nodup.of_map _ h

/-- A post with a strictly maximal effective-date key always survives the
trim. -/
theorem strict_max_in_trim (env : DateEnv) {M : List Post} {x : Post}
    (hnd : (urlsOf M).Nodup) (hx : x ∈ M)
    (hstrict : ∀ y ∈ M, y ≠ x → getPostDate env y < getPostDate env x) :
    x ∈ trimPosts (sortPosts env M) := by
  rw [trimPosts_eq_take]
  by_contra hnot
  have hxS : x ∈ sortPosts env M := mem_sortPosts.mpr hx
  have hsplit := List.take_append_drop MAX_POSTS (sortPosts env M)
  have hxdrop : x ∈ (sortPosts env M).drop MAX_POSTS := by
    have := hxS
    rw [← hsplit] at this
    rcases List.mem_append.mp this with h1 | h1
    · exact absurd h1 hnot
    · exact h1
  have htake_ne : (sortPosts env M).take MAX_POSTS ≠ [] := by
    intro hnil
    rcases List.take_eq_nil_iff.mp hnil with h1 | h1
    · exact absurd h1 (by unfold MAX_POSTS; omega)
    · rw [h1] at hxS
      cases hxS
  obtain ⟨y, hy⟩ := List.exists_mem_of_ne_nil _ htake_ne
  have hyS : y ∈ sortPosts env M := by
    rw [← hsplit]
    exact List.mem_append.mpr (Or.inl hy)
  have hyM : y ∈ M := mem_sortPosts.mp hyS
  have hSnodup : (sortPosts env M).Nodup :=
    nodup_of_urlsOf_nodup (urlsOf_sortPosts_nodup hnd)
  have hyx : y ≠ x := by
    intro h
    rw [← hsplit] at hSnodup
    exact (List.disjoint_of_nodup_append hSnodup) hy (h ▸ hxdrop)
  have hsorted := sorted_sortPosts env M
  rw [← hsplit] at hsorted
  have hord : postOrder env y x := (List.pairwise_append.mp hsorted).2.2 y hy x hxdrop
  exact absurd hord (not_le.mpr (hstrict y hyM hyx))

/-- A post with a strictly minimal effective-date key in an overfull
collection is evicted by the trim. -/
theorem strict_min_in_drop (env : DateEnv) {M : List Post} {x : Post}
    (hnd : (urlsOf M).Nodup) (hx : x ∈ M)
    (hstrict : ∀ y ∈ M, y ≠ x → getPostDate env x < getPostDate env y)
    (hlen : MAX_POSTS < M.length) :
    x ∈ (sortPosts env M).drop MAX_POSTS := by
  have hxS : x ∈ sortPosts env M := mem_sortPosts.mpr hx
  have hsplit := List.take_append_drop MAX_POSTS (sortPosts env M)
  rcases List.mem_append.mp (by rw [hsplit]; exact hxS :
      x ∈ (sortPosts env M).take MAX_POSTS ++ (sortPosts env M).drop MAX_POSTS)
    with htake | hdrop
  · exfalso
    have hSlen : (sortPosts env M).length = M.length :=
      (List.perm_insertionSort (postOrder env) M).length_eq
    have hdrop_ne : (sortPosts env M).drop MAX_POSTS ≠ [] := by
      intro hnil
      have := List.length_drop MAX_POSTS (sortPosts env M)
      rw [hnil] at this
      simp at this
      omega
    obtain ⟨z, hz⟩ := List.exists_mem_of_ne_nil _ hdrop_ne
    have hzS : z ∈ sortPosts env M := by
      rw [← hsplit]
      exact List.mem_append.mpr (Or.inr hz)
    have hzM : z ∈ M := mem_sortPosts.mp hzS
    have hSnodup : (sortPosts env M).Nodup :=
      nodup_of_urlsOf_nodup (urlsOf_sortPosts_nodup hnd)
    rw [← hsplit] at hSnodup
    have hzx : z ≠ x := by
      intro h
      exact (List.disjoint_of_nodup_append hSnodup) htake (h ▸ hz)
    have hsorted := sorted_sortPosts env M
    rw [← hsplit] at hsorted
    have hord : postOrder env x z := (List.pairwise_append.mp hsorted).2.2 x htake z hz
    exact absurd hord (not_le.mpr (hstrict z hzM hzx))
  · exact hdrop

theorem strict_min_evicted (env : DateEnv) {M : List Post} {x : Post}
    (hnd : (urlsOf M).Nodup) (hx : x ∈ M)
    (hstrict : ∀ y ∈ M, y ≠ x → getPostDate env x < getPostDate env y)
    (hlen : MAX_POSTS < M.length) :
    x ∉ trimPosts (sortPosts env M) := by
  rw [trimPosts_eq_take]
  intro htake
  have hdrop := strict_min_in_drop env hnd hx hstrict hlen
  have hSnodup : (sortPosts env M).Nodup :=
    nodup_of_urlsOf_nodup (urlsOf_sortPosts_nodup hnd)
  have hsplit := List.take_append_drop MAX_POSTS (sortPosts env M)
  rw [← hsplit] at hSnodup
  exact (List.disjoint_of_nodup_append hSnodup) htake hdrop

/-! ### Facts about the length-coded fixtures -/

theorem aUrl_data (i : Nat) : (aUrl i).data = '/' :: 'p' :: '/' :: List.replicate i 'a' := rfl

theorem aUrl_valid (i : Nat) : isValidPostUrl (aUrl i) = true := by
  apply valid_of_charset
  · rw [aUrl_data]
    simp
  · rw [aUrl_data]
    simp [listHasPre]
  · intro d hd
    rw [aUrl_data] at hd
    simp only [List.mem_cons] at hd
    rcases hd with h | h | h | h
    · exact Or.inl h
    · exact Or.inr (Or.inl h)
    · exact Or.inl h
    · exact Or.inr (Or.inr (Or.inl (List.eq_of_mem_replicate h)))

theorem bUrl_valid : isValidPostUrl bUrl = true := by decide

theorem aUrl_inj {i j : Nat} (h : aUrl i = aUrl j) : i = j := by
  have hd : '/' :: 'p' :: '/' :: List.replicate i 'a'
      = '/' :: 'p' :: '/' :: List.replicate j 'a' := congrArg String.data h
  have h3 : List.replicate i 'a' = List.replicate j 'a' := by simpa using hd
  simpa using congrArg List.length h3

theorem aUrl_ne_bUrl (i : Nat) : aUrl i ≠ bUrl := by
  intro h
  have hd : '/' :: 'p' :: '/' :: List.replicate i 'a'
      = ['/', 'p', '/', 'b'] := congrArg String.data h
  have h3 : List.replicate i 'a' = ['b'] := by simpa using hd
  cases i with
  | zero => simp [List.replicate] at h3
  | succ n =>
    rw [List.replicate_succ] at h3
    exact absurd (List.cons_eq_cons.mp h3).1 (by decide)

theorem xDate_ne_empty {n : Nat} (hn : n ≠ 0) : xDate n ≠ "" := by
  intro h
  have h2 : List.replicate n 'x' = [] := str_eq_empty_iff.mp h
  exact hn (by simpa using congrArg List.length h2)

theorem envLen_xDate {n : Nat} (hn : n ≠ 0) : envLen (xDate n) = some (n : Int) := by
  have hdn : ¬(List.replicate n 'x' = []) := by simp [hn]
  show (if List.replicate n 'x' = [] then none
        else some ((List.replicate n 'x').length : Int)) = some (n : Int)
  rw [if_neg hdn]
  simp

theorem getPostDate_mkPost_xDate (u : String) (r : Bool) {n : Nat} (hn : n ≠ 0) :
    getPostDate envLen (mkPost u (xDate n) r) = (n : Int) := by
  have hne : ¬(xDate n = "") := xDate_ne_empty hn
  show (if xDate n = "" then 0
        else match envLen (xDate n) with | some t => t | none => 0) = (n : Int)
  rw [if_neg hne, envLen_xDate hn]

theorem mem_bigState {y : Post} (hy : y ∈ bigState) : ∃ i, i < 300 ∧ y = postA i := by
  unfold bigState at hy
  obtain ⟨i, hi, rfl⟩ := List.mem_map.mp hy
  exact ⟨i, List.mem_range.mp hi, rfl⟩

theorem postA_mem_bigState {i : Nat} (hi : i < 300) : postA i ∈ bigState :=
  List.mem_map.mpr ⟨i, List.mem_range.mpr hi, rfl⟩

theorem postA_key (i : Nat) : getPostDate envLen (postA i) = ((i + 2 : Nat) : Int) :=
  getPostDate_mkPost_xDate _ _ (by omega)

theorem bigState_valid : ∀ p ∈ bigState, isValidPostUrl p.url = true := by
  intro p hp
  obtain ⟨i, _, rfl⟩ := mem_bigState hp
  exact aUrl_valid i

theorem urlsOf_bigState : urlsOf bigState = (List.range 300).map aUrl := by
  unfold bigState urlsOf
  rw [List.map_map]
  rfl

theorem nodup_urls_bigState_post {x : Post} (hu : ∀ i, aUrl i ≠ x.url) :
    (urlsOf (bigState ++ [x])).Nodup := by
  have h : urlsOf (bigState ++ [x]) = urlsOf bigState ++ [x.url] := by
    unfold urlsOf
    rw [List.map_append]
    rfl
  rw [h, List.nodup_append]
  refine ⟨?_, List.nodup_singleton _, ?_⟩
  · rw [urlsOf_bigState]
    exact List.Nodup.map (fun a b hab => aUrl_inj hab) (List.nodup_range 300)
  · intro u hu' hmem
    rw [urlsOf_bigState] at hu'
    obtain ⟨i, _, rfl⟩ := List.mem_map.mp hu'
    exact hu i (List.mem_singleton.mp hmem)

theorem sole_aUrl0 {x y : Post} (hxu : x.url = bUrl) (hy : y ∈ bigState ++ [x])
    (hyu : y.url = aUrl 0) : y = postA 0 := by
  rcases List.mem_append.mp hy with h | h
  · obtain ⟨i, _, rfl⟩ := mem_bigState h
    have hi0 : i = 0 := aUrl_inj hyu
    rw [hi0]
  · rw [List.mem_singleton] at h
    subst h
    have hcontra : bUrl = aUrl 0 := by rw [← hxu, hyu]
    exact absurd hcontra.symm (aUrl_ne_bUrl 0)

/-! ### One savePosts call on the full state plus one fresh post -/

theorem mergedMap_bigState_bpost {x : Post} (hxu : x.url = bUrl) :
    mergedMap bigState [x] = bigState ++ [x] := by
  apply mergedMap_fresh bigState_valid ?_
      (nodup_urls_bigState_post (fun i => by rw [hxu]; exact aUrl_ne_bUrl i))
  intro p hp
  rw [List.mem_singleton] at hp
  subst hp
  rw [hxu]
  exact bUrl_valid

theorem posts_bigState_bpost {x : Post} (hxu : x.url = bUrl) :
    (savePosts envLen bigState [x]).posts
      = trimPosts (sortPosts envLen (bigState ++ [x])) := by
  rw [savePosts_posts_eq, mergedMap_bigState_bpost hxu]

theorem mem_of_mid {x y : Post} (hxu : x.url = bUrl)
    (hy : y ∈ (savePosts envLen bigState [x]).posts) : y ∈ bigState ++ [x] := by
  rw [posts_bigState_bpost hxu] at hy
  exact mem_sortPosts.mp (mem_trimPosts hy)

theorem len_bigState_bpost (x : Post) : MAX_POSTS < (bigState ++ [x]).length := by
  rw [List.length_append]
  unfold bigState
  rw [List.length_map, List.length_range]
  simp [MAX_POSTS]

theorem qPost_key : getPostDate envLen qPost = ((400 : Nat) : Int) :=
  getPostDate_mkPost_xDate _ _ (by omega)

theorem oldPost_key : getPostDate envLen oldPost = ((1 : Nat) : Int) :=
  getPostDate_mkPost_xDate _ _ (by omega)

theorem rescrape_key : getPostDate envLen rescrape = ((500 : Nat) : Int) :=
  getPostDate_mkPost_xDate _ _ (by omega)

/-- Merging `qPost` into the already-full `bigState` evicts the oldest
post `postA 0` (the read one). -/
theorem c1_evict : postA 0 ∉ (savePosts envLen bigState [qPost]).posts := by
  rw [posts_bigState_bpost rfl]
  apply strict_min_evicted envLen (nodup_urls_bigState_post (fun i => aUrl_ne_bUrl i))
      (List.mem_append.mpr (Or.inl (postA_mem_bigState (by omega)))) ?_ (len_bigState_bpost qPost)
  intro y hy hne
  rw [postA_key]
  rcases List.mem_append.mp hy with h | h
  · obtain ⟨i, hi, rfl⟩ := mem_bigState h
    rw [postA_key]
    have hi0 : i ≠ 0 := by
      intro h0
      exact hne (by rw [h0])
    omega
  · rw [List.mem_singleton] at h
    subst h
    rw [qPost_key]
    omega

theorem c1_url0_absent : aUrl 0 ∉ urlsOf (savePosts envLen bigState [qPost]).posts := by
  intro h
  obtain ⟨e, he, heu⟩ := mem_urlsOf.mp h
  have he2 : e ∈ bigState ++ [qPost] := mem_of_mid rfl he
  have heq : e = postA 0 := sole_aUrl0 rfl he2 heu
  rw [heq] at he
  exact c1_evict he

/-- C1 (counterexample): `isRead` is NOT monotonic per url across merges.
Concretely: `bigState` holds `MAX_POSTS` posts whose oldest (url
`aUrl 0`) is read; merging the fresh newer post `qPost` evicts that read
post from the size-capped collection, and a later re-scrape of the very
same url (`rescrape`, unread) is persisted as a brand-new record with
`isRead = false` — the earlier `isRead = true` is silently lost. -/
theorem c1_counterexample :
    ((postA 0).url = aUrl 0 ∧ (postA 0).isRead = true ∧ postA 0 ∈ bigState)
    ∧ (rescrape.url = aUrl 0 ∧ rescrape.isRead = false
        ∧ rescrape ∈
            (savePosts envLen (savePosts envLen bigState [qPost]).posts [rescrape]).posts) := by
  refine ⟨⟨rfl, rfl, postA_mem_bigState (by omega)⟩, rfl, rfl, ?_⟩
  have hmidvalid : ∀ p ∈ (savePosts envLen bigState [qPost]).posts,
      isValidPostUrl p.url = true :=
    fun p hp => mem_mergedMap_valid (mem_savePosts_posts hp)
  have hmidnodup : (urlsOf (savePosts envLen bigState [qPost]).posts).Nodup :=
    urlsOf_savePosts_nodup envLen bigState [qPost]
  have hnd2 : (urlsOf ((savePosts envLen bigState [qPost]).posts ++ [rescrape])).Nodup := by
    have h : urlsOf ((savePosts envLen bigState [qPost]).posts ++ [rescrape])
        = urlsOf (savePosts envLen bigState [qPost]).posts ++ [aUrl 0] := by
      unfold urlsOf
      rw [List.map_append]
      rfl
    rw [h, List.nodup_append]
    exact ⟨hmidnodup, List.nodup_singleton _,
      fun u hu hmem => c1_url0_absent ((List.mem_singleton.mp hmem) ▸ hu)⟩
  have hM2 : mergedMap (savePosts envLen bigState [qPost]).posts [rescrape]
      = (savePosts envLen bigState [qPost]).posts ++ [rescrape] := by
    apply mergedMap_fresh hmidvalid ?_ hnd2
    intro p hp
    rw [List.mem_singleton] at hp
    subst hp
    exact aUrl_valid 0
  have hE : (savePosts envLen (savePosts envLen bigState [qPost]).posts [rescrape]).posts
      = trimPosts (sortPosts envLen
          ((savePosts envLen bigState [qPost]).posts ++ [rescrape])) := by
    rw [savePosts_posts_eq, hM2]
  have hmid_bound : ∀ y ∈ (savePosts envLen bigState [qPost]).posts,
      getPostDate envLen y ≤ ((400 : Nat) : Int) := by
    intro y hy
    rcases List.mem_append.mp (mem_of_mid rfl hy) with h | h
    · obtain ⟨i, hi, rfl⟩ := mem_bigState h
      rw [postA_key]
      omega
    · rw [List.mem_singleton] at h
      subst h
      rw [qPost_key]
  have hstrict2 : ∀ y ∈ (savePosts envLen bigState [qPost]).posts ++ [rescrape],
      y ≠ rescrape → getPostDate envLen y < getPostDate envLen rescrape := by
    intro y hy hne
    rw [rescrape_key]
    rcases List.mem_append.mp hy with h | h
    · have := hmid_bound y h
      omega
    · exact absurd (List.mem_singleton.mp h) hne
  rw [hE]
  exact strict_max_in_trim envLen hnd2
    (List.mem_append.mpr (Or.inr (List.mem_singleton.mpr rfl))) hstrict2
/-! ### C4 -/

/-- C4 (amended): every merge result has at most `MAX_POSTS` posts, and
is exactly the descending stable sort of the merged map by the code's
effective-date key truncated to `MAX_POSTS`, so every kept entry's key is
at least every dropped entry's key.  The key of a post with no (or
unparseable) date is the epoch instant 0 — not an extreme value — so
such posts are NOT always the first evicted: a post whose date parses to
a pre-1970 (negative) instant is treated as older (see the
counterexample). -/
theorem c4_amended (env : DateEnv) (s b : List Post) :
    (savePosts env s b).posts.length ≤ MAX_POSTS
    ∧ (savePosts env s b).posts = (sortPosts env (mergedMap s b)).take MAX_POSTS
    ∧ (sortPosts env (mergedMap s b)).Pairwise (postOrder env)
    ∧ ∀ p ∈ (savePosts env s b).posts,
        ∀ q ∈ (sortPosts env (mergedMap s b)).drop MAX_POSTS,
          getPostDate env q ≤ getPostDate env p := by
  have h2 : (savePosts env s b).posts = (sortPosts env (mergedMap s b)).take MAX_POSTS := by
    rw [savePosts_posts_eq, trimPosts_eq_take]
  refine ⟨?_, h2, sorted_sortPosts env _, ?_⟩
  · rw [savePosts_posts_eq]
    exact trimPosts_length_le _
  · intro p hp q hq
    have hsorted := sorted_sortPosts env (mergedMap s b)
    have hsplit := List.take_append_drop MAX_POSTS (sortPosts env (mergedMap s b))
    rw [← hsplit] at hsorted
    rw [h2] at hp
    exact (List.pairwise_append.mp hsorted).2.2 p hp q hq


/-! ### C4 fixtures: a batch with one undated post and 300 pre-epoch posts -/

/-- Date string parsing to a pre-1970 instant: `-` followed by `n` `d`s. -/
def negDate (n : Nat) : String := String.mk ('-' :: List.replicate n 'd')

/-- Date environment for C4: a string starting with `-` denotes a
pre-epoch instant (negative milliseconds, coded by its length), any
other nonempty string a positive instant; the empty string is invalid.
Such parses are realizable: JavaScript `new Date("1969-12-30")` is a
finite negative number of milliseconds, not `NaN`. -/
def env4 : DateEnv := fun s =>
  match s.data with
  | [] => none
  | c :: rest => if c = '-' then some (-((rest.length : Int) + 1))
                 else some ((rest.length : Int) + 1)

/-- The i-th dated incoming post: valid url, `publishedAt` parsing to the
negative instant `-(i + 2)`. -/
def postN (i : Nat) : Post :=
  { mkPost (aUrl i) "" false with publishedAt := some (negDate (i + 1)) }

/-- An incoming post with no date information at all: its effective date
string is empty, so its sort key is the epoch instant 0. -/
def noDatePost : Post := mkPost bUrl "" false

/-- A batch of `MAX_POSTS + 1` posts: the undated one plus 300 dated
(pre-epoch) ones. -/
def c4Batch : List Post := noDatePost :: (List.range 300).map postN

theorem negDate_ne_empty (n : Nat) : negDate n ≠ "" := by
  intro h
  cases str_eq_empty_iff.mp h

theorem env4_negDate (n : Nat) : env4 (negDate n) = some (-((n : Int) + 1)) := by
  show (if ('-' : Char) = '-' then some (-(((List.replicate n 'd').length : Int) + 1))
        else some (((List.replicate n 'd').length : Int) + 1)) = some (-((n : Int) + 1))
  rw [if_pos rfl]
  simp

theorem noDatePost_key : getPostDate env4 noDatePost = 0 := rfl

theorem effDateStr_postN (i : Nat) : effDateStr (postN i) = negDate (i + 1) := by
  show (if negDate (i + 1) = "" then "" else negDate (i + 1)) = negDate (i + 1)
  rw [if_neg (negDate_ne_empty (i + 1))]

theorem postN_key (i : Nat) : getPostDate env4 (postN i) = -((i : Int) + 2) := by
  show (if effDateStr (postN i) = "" then 0
        else match env4 (effDateStr (postN i)) with | some t => t | none => 0)
      = -((i : Int) + 2)
  rw [effDateStr_postN, if_neg (negDate_ne_empty (i + 1)), env4_negDate]
  show -(((i + 1 : Nat) : Int) + 1) = -((i : Int) + 2)
  push_cast
  ring

theorem mem_c4Batch {y : Post} (hy : y ∈ c4Batch) :
    y = noDatePost ∨ ∃ i, i < 300 ∧ y = postN i := by
  rcases List.mem_cons.mp hy with h | h
  · exact Or.inl h
  · obtain ⟨i, hi, rfl⟩ := List.mem_map.mp h
    exact Or.inr ⟨i, List.mem_range.mp hi, rfl⟩

theorem c4Batch_valid : ∀ p ∈ c4Batch, isValidPostUrl p.url = true := by
  intro p hp
  rcases mem_c4Batch hp with h | ⟨i, _, h⟩ <;> subst h
  · exact bUrl_valid
  · exact aUrl_valid i

theorem urlsOf_c4Batch : urlsOf c4Batch = bUrl :: (List.range 300).map aUrl := by
  unfold c4Batch urlsOf
  rw [List.map_cons, List.map_map]
  rfl

theorem nodup_c4Batch : (urlsOf c4Batch).Nodup := by
  rw [urlsOf_c4Batch, List.nodup_cons]
  refine ⟨?_, List.Nodup.map (fun a b hab => aUrl_inj hab) (List.nodup_range 300)⟩
  intro h
  obtain ⟨i, _, hN⟩ := List.mem_map.mp h
  exact aUrl_ne_bUrl i hN

theorem mergedMap_c4 : mergedMap [] c4Batch = c4Batch := by
  have h : mergedMap [] c4Batch = [] ++ c4Batch :=
    mergedMap_fresh (fun p hp => absurd hp (List.not_mem_nil p)) c4Batch_valid
      (by rw [List.nil_append]; exact nodup_c4Batch)
  rw [h, List.nil_append]

theorem c4Res_posts : (savePosts env4 [] c4Batch).posts
    = trimPosts (sortPosts env4 c4Batch) := by
  rw [savePosts_posts_eq, mergedMap_c4]

theorem c4Batch_length : c4Batch.length = 301 := by
  unfold c4Batch
  rw [List.length_cons, List.length_map, List.length_range]

theorem c4Res_length : (savePosts env4 [] c4Batch).posts.length = MAX_POSTS := by
  have hlen : (sortPosts env4 c4Batch).length = 301 := by
    unfold sortPosts
    rw [(List.perm_insertionSort (postOrder env4) c4Batch).length_eq, c4Batch_length]
  rw [c4Res_posts, trimPosts_eq_take, List.length_take, hlen]
  decide

theorem c4_noDate_strict : ∀ y ∈ c4Batch, y ≠ noDatePost →
    getPostDate env4 y < getPostDate env4 noDatePost := by
  intro y hy hne
  rw [noDatePost_key]
  rcases mem_c4Batch hy with h | ⟨i, _, h⟩
  · exact absurd h hne
  · subst h
    rw [postN_key]
    omega

theorem c4_noDate_kept : noDatePost ∈ (savePosts env4 [] c4Batch).posts := by
  rw [c4Res_posts]
  exact strict_max_in_trim env4 nodup_c4Batch (List.mem_cons_self _ _) c4_noDate_strict

theorem c4_oldest_dropped : postN 299 ∈ (sortPosts env4 c4Batch).drop MAX_POSTS := by
  apply strict_min_in_drop env4 nodup_c4Batch ?_ ?_ ?_
  · exact List.mem_cons_of_mem _ (List.mem_map.mpr ⟨299, List.mem_range.mpr (by omega), rfl⟩)
  · intro y hy hne
    rw [postN_key]
    rcases mem_c4Batch hy with h | ⟨i, hi, h⟩
    · subst h
      rw [noDatePost_key]
      omega
    · subst h
      rw [postN_key]
      have hi299 : i ≠ 299 := by
        intro h0
        subst h0
        exact hne rfl
      omega
  · rw [c4Batch_length]
    decide

/-- C4 (counterexample): a merge of 301 posts does trim to 300, but the
post with NO date (effective-date key 0) is retained while a dated post
is dropped, even though every dated post in the batch has a strictly
smaller (older, pre-epoch) key than the undated one: undated posts are
keyed at epoch 0, not treated as oldest. -/
theorem c4_counterexample :
    c4Batch.length = MAX_POSTS + 1
    ∧ (savePosts env4 [] c4Batch).posts.length = MAX_POSTS
    ∧ getPostDate env4 noDatePost = 0
    ∧ (∀ y ∈ c4Batch, y ≠ noDatePost → getPostDate env4 y < getPostDate env4 noDatePost)
    ∧ noDatePost ∈ (savePosts env4 [] c4Batch).posts :=
  ⟨by rw [c4Batch_length]; decide, c4Res_length, noDatePost_key, c4_noDate_strict,
    c4_noDate_kept⟩

/-- C4 witness: the retention bound of `c4_amended` applied at the
concrete input `env4`, empty store, batch `c4Batch`: the kept undated
post's key dominates the dropped dated post's key. -/
theorem c4_witness : getPostDate env4 (postN 299) ≤ getPostDate env4 noDatePost :=
  (c4_amended env4 [] c4Batch).2.2.2 noDatePost c4_noDate_kept (postN 299)
    (by rw [mergedMap_c4]; exact c4_oldest_dropped)

/-! ### C5: when the second identical merge is a no-op -/

theorem map_eq_self_of_mem {α : Type} {f : α → α} {l : List α}
    (h : ∀ a ∈ l, f a = a) : l.map f = l := by
  induction l with
  | nil => rfl
  | cons x xs ih =>
    rw [List.map_cons, h x (List.mem_cons_self x xs),
      ih (fun a ha => h a (List.mem_cons_of_mem x ha))]

/-- C5 (amended): merge idempotence holds exactly when the first call's
size-cap trim drops no incoming post.  If every valid incoming url is
still present after the first call, re-merging the same batch yields an
unchanged collection, `added = 0` and `updated` = the number of valid
incoming posts.  (The counterexample shows `added = 1` on the second
call when the trim evicts an incoming post.) -/
theorem c5_amended (env : DateEnv) (s b : List Post)
    (hkept : ∀ p ∈ b, isValidPostUrl p.url = true →
        p.url ∈ urlsOf (savePosts env s b).posts) :
    (savePosts env (savePosts env s b).posts b).posts = (savePosts env s b).posts
    ∧ (savePosts env (savePosts env s b).posts b).added = 0
    ∧ (savePosts env (savePosts env s b).posts b).updated
        = (b.filter (fun post => isValidPostUrl post.url)).length := by
  have hPvalid : ∀ p ∈ (savePosts env s b).posts, isValidPostUrl p.url = true :=
    fun p hp => mem_mergedMap_valid (mem_savePosts_posts hp)
  have hPnodup : (urlsOf (savePosts env s b).posts).Nodup :=
    urlsOf_savePosts_nodup env s b
  have hstored : getStoredPosts (savePosts env s b).posts = (savePosts env s b).posts :=
    List.filter_eq_self.mpr hPvalid
  have hpres : ∀ p ∈ b.filter (fun post => isValidPostUrl post.url),
      p.url ∈ urlsOf (savePosts env s b).posts := by
    intro p hp
    exact hkept p (List.mem_filter.mp hp).1 (List.mem_filter.mp hp).2
  have hfix : ∀ e ∈ (savePosts env s b).posts,
      finalVal (b.filter (fun post => isValidPostUrl post.url)) e = e := by
    intro e he
    have hch := mem_mapOnlyFold_charac
      (show e ∈ mapOnlyFold (buildMap (getStoredPosts s))
          (b.filter (fun post => isValidPostUrl post.url)) from mem_savePosts_posts he)
    unfold finalVal
    cases hcase : lastOcc (b.filter (fun post => isValidPostUrl post.url)) e.url with
    | some q =>
      rw [hcase] at hch
      exact (show e = setRead q e.isRead from hch).symm
    | none => rfl
  have hM2 : mergedMap (savePosts env s b).posts b = (savePosts env s b).posts := by
    unfold mergedMap
    rw [hstored, buildMap_eq_self hPnodup, mapOnlyFold_eq_map hPnodup hpres]
    exact map_eq_self_of_mem hfix
  have hsorted : (savePosts env s b).posts.Pairwise (postOrder env) := by
    rw [savePosts_posts_eq, trimPosts_eq_take]
    exact List.Pairwise.sublist (List.take_sublist _ _) (sorted_sortPosts env _)
  have hsort2 : sortPosts env (savePosts env s b).posts = (savePosts env s b).posts := by
    unfold sortPosts
    exact List.Sorted.insertionSort_eq hsorted
  have hlenP : (savePosts env s b).posts.length ≤ MAX_POSTS := by
    rw [savePosts_posts_eq]
    exact trimPosts_length_le _
  have hposts : (savePosts env (savePosts env s b).posts b).posts
      = (savePosts env s b).posts := by
    rw [savePosts_posts_eq, hM2, hsort2]
    exact trimPosts_eq_self_of_le hlenP
  have hcounts := foldl_mergeStepFold_counts
    (b.filter (fun post => isValidPostUrl post.url)) (savePosts env s b).posts 0 0 hpres
  have ha : (savePosts env (savePosts env s b).posts b).added
      = ((b.filter (fun post => isValidPostUrl post.url)).foldl mergeStepFold
          ((savePosts env s b).posts, 0, 0)).2.1 := by
    show ((b.filter (fun post => isValidPostUrl post.url)).foldl mergeStepFold
        (buildMap (getStoredPosts (savePosts env s b).posts), 0, 0)).2.1 = _
    rw [hstored, buildMap_eq_self hPnodup]
  have hu : (savePosts env (savePosts env s b).posts b).updated
      = ((b.filter (fun post => isValidPostUrl post.url)).foldl mergeStepFold
          ((savePosts env s b).posts, 0, 0)).2.2 := by
    show ((b.filter (fun post => isValidPostUrl post.url)).foldl mergeStepFold
        (buildMap (getStoredPosts (savePosts env s b).posts), 0, 0)).2.2 = _
    rw [hstored, buildMap_eq_self hPnodup]
  refine ⟨hposts, ?_, ?_⟩
  · rw [ha, hcounts]
  · rw [hu, hcounts]
    show 0 + (b.filter (fun post => isValidPostUrl post.url)).length = _
    omega

/-- C5 witness: `c5_amended` at the concrete one-post batch `[wPost]`
over the empty store. -/
theorem c5_witness :
    (savePosts envInt (savePosts envInt [] [wPost]).posts [wPost]).posts
        = (savePosts envInt [] [wPost]).posts
    ∧ (savePosts envInt (savePosts envInt [] [wPost]).posts [wPost]).added = 0
    ∧ (savePosts envInt (savePosts envInt [] [wPost]).posts [wPost]).updated
        = ([wPost].filter (fun post => isValidPostUrl post.url)).length :=
  c5_amended envInt [] [wPost] (by decide)

theorem savePosts_added_eq (env : DateEnv) (s b : List Post) :
    (savePosts env s b).added
      = ((b.filter (fun post => isValidPostUrl post.url)).foldl mergeStepFold
          (buildMap (getStoredPosts s), 0, 0)).2.1 := rfl

theorem mergeStepFold_none {m : List Post} {p : Post} {a u : Nat}
    (h : mapGet m p.url = none) :
    mergeStepFold (m, a, u) p = (mapSet m p, a + 1, u) := by
  unfold mergeStepFold
  simp only [h]

theorem c5_evict : oldPost ∉ (savePosts envLen bigState [oldPost]).posts := by
  rw [posts_bigState_bpost rfl]
  apply strict_min_evicted envLen (nodup_urls_bigState_post (fun i => aUrl_ne_bUrl i))
      (List.mem_append.mpr (Or.inr (List.mem_singleton.mpr rfl))) ?_
      (len_bigState_bpost oldPost)
  intro y hy hne
  rw [oldPost_key]
  rcases List.mem_append.mp hy with h | h
  · obtain ⟨i, hi, rfl⟩ := mem_bigState h
    rw [postA_key]
    omega
  · rw [List.mem_singleton] at h
    exact absurd h hne

theorem c5_bUrl_absent : bUrl ∉ urlsOf (savePosts envLen bigState [oldPost]).posts := by
  intro h
  obtain ⟨e, he, heu⟩ := mem_urlsOf.mp h
  rcases List.mem_append.mp (mem_of_mid rfl he) with h2 | h2
  · obtain ⟨i, _, rfl⟩ := mem_bigState h2
    exact aUrl_ne_bUrl i heu
  · rw [List.mem_singleton] at h2
    subst h2
    exact c5_evict he

/-- C5 (counterexample): merging the batch `[oldPost]` into the full
`bigState` trims `oldPost` right back out (it is the oldest of 301
posts), so an immediate second merge of the same batch reports
`added = 1`, not `added = 0`: merge is not idempotent when the size cap
drops an incoming post. -/
theorem c5_counterexample :
    (savePosts envLen (savePosts envLen bigState [oldPost]).posts [oldPost]).added = 1 := by
  have hPvalid : ∀ p ∈ (savePosts envLen bigState [oldPost]).posts,
      isValidPostUrl p.url = true :=
    fun p hp => mem_mergedMap_valid (mem_savePosts_posts hp)
  have hPnodup : (urlsOf (savePosts envLen bigState [oldPost]).posts).Nodup :=
    urlsOf_savePosts_nodup envLen bigState [oldPost]
  have hstored : getStoredPosts (savePosts envLen bigState [oldPost]).posts
      = (savePosts envLen bigState [oldPost]).posts := List.filter_eq_self.mpr hPvalid
  have hnone : mapGet (savePosts envLen bigState [oldPost]).posts oldPost.url = none :=
    mapGet_eq_none_iff.mpr c5_bUrl_absent
  have hfb : [oldPost].filter (fun post => isValidPostUrl post.url) = [oldPost] := by
    rw [List.filter_cons, if_pos (show isValidPostUrl oldPost.url = true from bUrl_valid),
      List.filter_nil]
  rw [savePosts_added_eq, hstored, buildMap_eq_self hPnodup, hfb,
    List.foldl_cons, List.foldl_nil, mergeStepFold_none hnone]

/-! ### C6: the derived post id -/

theorem deriveId_length (url : String) : (deriveId url).data.length = url.data.length := by
  show (url.data.map _).length = url.data.length
  exact List.length_map _ _

/-- C6 (amended): the extracted Post id is deterministic — it is always
`deriveId` applied to the element's href, which becomes the post's url —
and it is non-empty for every accepted element.  `deriveId` is however
NOT collision-free for distinct urls (see the counterexample). -/
theorem c6_amended (now : Int) (el : PostElement) (p : Post)
    (h : extractPostFromElement now el = some p) :
    p.url = el.href ∧ p.id = deriveId p.url ∧ p.id ≠ "" := by
  have hvalid : isValidArticleUrl el.href = true := by
    by_contra hv
    have hb : isValidArticleUrl el.href = false := by
      cases hb2 : isValidArticleUrl el.href
      · rfl
      · exact absurd hb2 hv
    simp only [extractPostFromElement] at h
    rw [hb] at h
    simp at h
  simp only [extractPostFromElement] at h
  split at h
  · exact Option.noConfusion h
  · split at h
    · exact Option.noConfusion h
    · split at h
      · exact Option.noConfusion h
      · split at h
        · exact Option.noConfusion h
        · split at h
          · exact Option.noConfusion h
          · split at h
            · exact Option.noConfusion h
            · have hp := Option.some.inj h
              subst hp
              refine ⟨rfl, rfl, ?_⟩
              show deriveId el.href ≠ ""
              intro h0
              have hlen : (deriveId el.href).data.length = 0 := by
                rw [h0]
                rfl
              rw [deriveId_length] at hlen
              have h1 : el.href.data = [] := List.length_eq_zero.mp hlen
              have h2 : el.href = "" := str_eq_empty_iff.mpr h1
              rw [h2] at hvalid
              exact absurd hvalid (by decide)

/-- A concrete accepted post element. -/
def elW : PostElement :=
  { href := "https://pub.substack.com/p/hello", titleText := some "Hello World",
    subtitleText := none, pubNameText := some "The Pub", logoSrc := none,
    coverImgs := [], dateText := none, metaText := none, hasUnreadDot := true }

/-- The post `extractPostFromElement` produces from `elW` at instant 0. -/
def pW : Post :=
  { id := deriveId "https://pub.substack.com/p/hello", title := "Hello World",
    subtitle := "", publication := "The Pub", publicationLogo := none, author := "",
    coverImage := none, url := "https://pub.substack.com/p/hello", publishedAt := none,
    isRead := false, extractedAt := toIsoString 0 }

/-- C6 witness: `c6_amended` at the concrete element `elW`. -/
theorem c6_witness : pW.url = elW.href ∧ pW.id = deriveId pW.url ∧ pW.id ≠ "" :=
  c6_amended 0 elW pW (by decide)

/-- C6 (counterexample): `deriveId` is not collision-free: two distinct
valid article urls, differing only in `.` versus `_`, derive the same
id (`replace(/[^a-zA-Z0-9]/g, '_')` maps both characters to `_`). -/
theorem c6_counterexample :
    "https://x.substack.com/p/a.b" ≠ "https://x.substack.com/p/a_b"
    ∧ isValidArticleUrl "https://x.substack.com/p/a.b" = true
    ∧ isValidArticleUrl "https://x.substack.com/p/a_b" = true
    ∧ deriveId "https://x.substack.com/p/a.b" = deriveId "https://x.substack.com/p/a_b" :=
  ⟨by decide, by decide, by decide, by decide⟩

/-! ### C7: the date normalizer on the three specified inputs -/

theorem daysInMonth_jan (y : Int) : daysInMonth y 1 = 31 := by
  unfold daysInMonth
  norm_num

/-- C7: the Date Normalizer maps `"2h ago"` at reference instant `t` to
`t` minus two hours; maps `"Jan 10"` whose current-year interpretation
lies strictly in the future to January 10 of the previous year; and maps
the unrecognized `"banana"` to `none` (unknown), never to epoch zero. -/
theorem c7_normalizer :
    (∀ t : Int, parseRelativeDate t (some "2h ago") = some (t - 7200000))
    ∧ (∀ t : Int, msOfCivil (yearOfInstant t) 1 10 > t →
        parseRelativeDate t (some "Jan 10")
          = some (msOfCivil (yearOfInstant t - 1) 1 10))
    ∧ (∀ t : Int, parseRelativeDate t (some "banana") = none) := by
  refine ⟨fun t => rfl, ?_, fun t => rfl⟩
  intro t hfut
  show (if 1 ≤ (10 : Int) ∧ (10 : Int) ≤ daysInMonth (yearOfInstant t) 1 then
        if msOfCivil (yearOfInstant t) 1 10 > t then
          some (msOfCivil (yearOfInstant t - 1) 1 10)
        else some (msOfCivil (yearOfInstant t) 1 10)
      else none) = some (msOfCivil (yearOfInstant t - 1) 1 10)
  rw [if_pos (by rw [daysInMonth_jan]; norm_num), if_pos hfut]

/-- C7 witness: `c7_normalizer` at the concrete reference instant
2026-01-05 (UTC), on which the current-year reading of `"Jan 10"` is in
the future. -/
theorem c7_witness :
    parseRelativeDate (msOfCivil 2026 1 5) (some "Jan 10")
      = some (msOfCivil (yearOfInstant (msOfCivil 2026 1 5) - 1) 1 10) :=
  c7_normalizer.2.1 (msOfCivil 2026 1 5) (by decide)

/-! ### C8: the timeout path rejects and clears all pending state -/

/-- C8: a refresh invocation that opens tab `t` and then only sees its
30-second timeout fire (no extraction message, tab never reaches the
loaded state) ends with its promise rejected exactly once and with no
pending refresh state at all: no pending tab id, no installed promise,
no load listener, no live timer — so a subsequent refresh starts
cleanly. -/
theorem c8_timeout_cleanup (i t : Nat) :
    orchRun orchInit [OrchEv.callRefresh i (some t), OrchEv.timerFire i t]
      = { pendingRefreshTabId := none, owner := none, listener := none,
          timers := [], settleLog := [(i, Outcome.rejectedP)], used := [i] } := by
  show orchStep (orchStep orchInit (OrchEv.callRefresh i (some t))) (OrchEv.timerFire i t) = _
  have h1 : orchStep orchInit (OrchEv.callRefresh i (some t))
      = { pendingRefreshTabId := some t, owner := some i, listener := some i,
          timers := [(i, t)], settleLog := [], used := [i] } := rfl
  rw [h1]
  simp only [orchStep]
  simp [List.erase_cons_head]

/-! ### C9: extraction messages from a non-pending tab are ignored -/

/-- C9: while a refresh is in flight with pending tab `P`, a
`POSTS_EXTRACTED` message from any tab `q ≠ P` leaves the orchestrator
state completely unchanged: it neither resolves nor rejects the in-flight
promise and does not clear the pending target. -/
theorem c9_mismatch_ignored (s : OrchState) (P q : Nat) (ok : Bool)
    (hpend : s.pendingRefreshTabId = some P) (hne : q ≠ P) :
    orchStep s (OrchEv.postsExtracted q ok) = s := by
  show (if q ≠ 0 ∧ s.pendingRefreshTabId = some q then _ else s) = s
  rw [if_neg ?_]
  intro hc
  rw [hpend] at hc
  exact hne (Option.some.inj hc.2).symm

/-- C9 witness: `c9_mismatch_ignored` on the concrete in-flight state
created by one refresh call with tab 5, hit by a message from tab 7. -/
theorem c9_witness :
    orchStep (orchStep orchInit (OrchEv.callRefresh 1 (some 5)))
        (OrchEv.postsExtracted 7 true)
      = orchStep orchInit (OrchEv.callRefresh 1 (some 5)) :=
  c9_mismatch_ignored _ 5 7 true rfl (by decide)

/-! ### C3: settlement discipline of refresh promises -/

/-- C3 (amended): over any wellformed event trace, every refresh
invocation's promise settles AT MOST once (never both resolve and
reject); and a trace containing exactly one refresh call settles that
call's promise exactly once provided its 30-second timer is not still
pending at the end.  Exhaustive settlement does NOT hold in general: a
superseding refresh call strands the previous invocation's promise,
which then never settles (see the counterexample). -/
theorem c3_amended (tr : List OrchEv) (hwf : WFTrace tr) :
    (∀ i, settleCount (orchRun orchInit tr) i ≤ 1)
    ∧ (∀ i res, callEvsOf tr = [(i, res)] → (orchRun orchInit tr).timers = [] →
        settleCount (orchRun orchInit tr) i = 1) := by
  constructor
  · exact (orchRun_inv tr orchInit orchInv_init (fun i _ => List.not_mem_nil i) hwf).1
  · intro i res hcall htim
    obtain ⟨pre, post, heq, hpre, hpost⟩ := single_call_split tr hcall
    subst heq
    have hrunpre : orchRun orchInit pre = orchInit :=
      orchRun_nocall_noop pre orchInit hpre rfl rfl
    have hsplit : orchRun orchInit (pre ++ OrchEv.callRefresh i res :: post)
        = orchRun (orchStep orchInit (OrchEv.callRefresh i res)) post := by
      show List.foldl orchStep orchInit (pre ++ OrchEv.callRefresh i res :: post)
          = List.foldl orchStep (orchStep orchInit (OrchEv.callRefresh i res)) post
      rw [List.foldl_append, List.foldl_cons]
      rw [show List.foldl orchStep orchInit pre = orchInit from hrunpre]
    rw [hsplit] at htim ⊢
    cases res with
    | some t =>
      have hac : afterCallInv i t (orchStep orchInit (OrchEv.callRefresh i (some t))) := by
        constructor
        · intro x hx
          simp [orchStep, orchInit] at hx
          exact hx
        · right
          refine ⟨?_, rfl, rfl, ?_⟩
          · simp [settleCount, orchStep, orchInit]
          · simp [orchStep, orchInit]
      have hfin := afterCallInv_run post hpost hac
      rcases hfin.2 with ⟨h1, _⟩ | ⟨_, _, _, hmem⟩
      · exact h1
      · rw [htim] at hmem
        exact absurd hmem (List.not_mem_nil _)
    | none =>
      have hac : afterCallInv i 0 (orchStep orchInit (OrchEv.callRefresh i none)) := by
        constructor
        · intro x hx
          simp [orchStep, orchInit] at hx
        · left
          constructor
          · simp [settleCount, orchStep, orchInit]
          · rfl
      have hfin := afterCallInv_run post hpost hac
      rcases hfin.2 with ⟨h1, _⟩ | ⟨_, _, _, hmem⟩
      · exact h1
      · rw [htim] at hmem
        exact absurd hmem (List.not_mem_nil _)

/-- C3 witness: `c3_amended` on the concrete single-call trace
`[callRefresh 3 (some 7), timerFire 3 7]`: the invocation settles
exactly once. -/
theorem c3_witness :
    settleCount (orchRun orchInit
      [OrchEv.callRefresh 3 (some 7), OrchEv.timerFire 3 7]) 3 = 1 :=
  (c3_amended [OrchEv.callRefresh 3 (some 7), OrchEv.timerFire 3 7]
    (by unfold WFTrace; decide)).2
    3 (some 7) (by decide) (by decide)

/-- C3 (counterexample): with two overlapping refresh calls (tab 10 then
tab 20) whose timers both fire, the trace is wellformed and no timer is
left pending, yet invocation 1's promise never settles (count 0):
the superseding call silently strands the first promise, so "exactly one
of resolve/reject fires per invocation" is false — only the at-most-once
half survives. -/
theorem c3_counterexample :
    WFTrace [OrchEv.callRefresh 1 (some 10), OrchEv.callRefresh 2 (some 20),
      OrchEv.timerFire 1 10, OrchEv.timerFire 2 20]
    ∧ (orchRun orchInit [OrchEv.callRefresh 1 (some 10), OrchEv.callRefresh 2 (some 20),
        OrchEv.timerFire 1 10, OrchEv.timerFire 2 20]).timers = []
    ∧ settleCount (orchRun orchInit [OrchEv.callRefresh 1 (some 10),
        OrchEv.callRefresh 2 (some 20), OrchEv.timerFire 1 10, OrchEv.timerFire 2 20]) 1 = 0
    ∧ settleCount (orchRun orchInit [OrchEv.callRefresh 1 (some 10),
        OrchEv.callRefresh 2 (some 20), OrchEv.timerFire 1 10, OrchEv.timerFire 2 20]) 2
        = 1 := by
  refine ⟨by unfold WFTrace; decide, by decide, by decide, by decide⟩
